import Mathlib

/-!
Verification of the notemarks reconciliation and diff engine.

Strings of the source language are modelled as `List Char`; each definition
is a direct translation of the corresponding function in the repository
(`HelperComponents.tsx` path codec, `octokit.tsx` tree merge and commit
sequencing, `NoteEditor.tsx` entry/link reconciliation).
-/

/-! ## Path codec (HelperComponents.tsx) -/

/-- U+29F8 BIG SOLIDUS, the stand-in for `/`. -/
def bigSolidus : Char := Char.ofNat 0x29F8

/-- U+29F9 BIG REVERSE SOLIDUS, the stand-in escape character. -/
def bigBackSolidus : Char := Char.ofNat 0x29F9

/-- One global single-character regex replacement `s.replace(/c/gu, img)`. -/
def replaceChar (c : Char) (img : List Char) : List Char → List Char
  | [] => []
  | x :: xs => (if x = c then img else [x]) ++ replaceChar c img xs

/-- The `escapeTitle` function: three sequential global replacements, in the
fixed order of the source (escape the escape char, escape the stand-in,
replace the separator). -/
def escapeTitle (s : List Char) : List Char :=
  replaceChar '/' [bigSolidus]
    (replaceChar bigSolidus [bigBackSolidus, bigSolidus]
      (replaceChar bigBackSolidus [bigBackSolidus, bigBackSolidus] s))

/-- The scanning loop of `unescapeTitle` with its one-character escape flag. -/
def unescapeAux : List Char → Bool → List Char
  | [], _ => []
  | c :: rest, true => c :: unescapeAux rest false
  | c :: rest, false =>
    if c = bigBackSolidus then unescapeAux rest true
    else if c = bigSolidus then '/' :: unescapeAux rest false
    else c :: unescapeAux rest false

/-- The `unescapeTitle` function. -/
def unescapeTitle (s : List Char) : List Char := unescapeAux s false

/-- JavaScript `String.lastIndexOf` for a single character (`none` = `-1`). -/
def lastIndexOf (c : Char) : List Char → Option Nat
  | [] => none
  | x :: xs =>
    match lastIndexOf c xs with
    | some i => some (i + 1)
    | none => if x = c then some 0 else none

/-- The `filenameToTitle` function: strip the final extension at the last dot,
then unescape. -/
def filenameToTitle (filename : List Char) : List Char :=
  match lastIndexOf '.' filename with
  | none => unescapeTitle filename
  | some i => unescapeTitle (filename.take i)

/-- The `titleToFilename` function: escape, then append `.extension` when the
extension argument is present and non-empty. -/
def titleToFilename (title : List Char) (extension : Option (List Char)) : List Char :=
  match extension with
  | some ext => if ext.length > 0 then escapeTitle title ++ '.' :: ext else escapeTitle title
  | none => escapeTitle title

/-- Per-character image of the composed escaping. -/
def escChar (c : Char) : List Char :=
  if c = bigBackSolidus then [bigBackSolidus, bigBackSolidus]
  else if c = bigSolidus then [bigBackSolidus, bigSolidus]
  else if c = '/' then [bigSolidus]
  else [c]

theorem replaceChar_append (c : Char) (img s t : List Char) :
    replaceChar c img (s ++ t) = replaceChar c img s ++ replaceChar c img t := by
  induction s with
  | nil => simp [replaceChar]
  | cons x xs ih => simp [replaceChar, ih]

theorem escapeTitle_cons (c : Char) (s : List Char) :
    escapeTitle (c :: s) = escChar c ++ escapeTitle s := by
  have e98 : ¬ (bigBackSolidus = bigSolidus) := by decide
  have e9s : ¬ (bigBackSolidus = '/') := by decide
  have e8s : ¬ (bigSolidus = '/') := by decide
  by_cases h9 : c = bigBackSolidus
  · subst h9
    simp [escapeTitle, escChar, replaceChar, replaceChar_append, e98, e9s]
  · by_cases h8 : c = bigSolidus
    · subst h8
      simp [escapeTitle, escChar, replaceChar, replaceChar_append, e98, e9s, e8s, h9]
    · by_cases hs : c = '/'
      · subst hs
        simp [escapeTitle, escChar, replaceChar, replaceChar_append, e9s, e8s, h9, h8]
      · simp [escapeTitle, escChar, replaceChar, replaceChar_append, h9, h8, hs]

theorem unescapeAux_escChar (c : Char) (rest : List Char) :
    unescapeAux (escChar c ++ rest) false = c :: unescapeAux rest false := by
  have e89 : ¬ (bigSolidus = bigBackSolidus) := by decide
  have es9 : ¬ (('/' : Char) = bigBackSolidus) := by decide
  have es8 : ¬ (('/' : Char) = bigSolidus) := by decide
  by_cases h9 : c = bigBackSolidus
  · subst h9; simp [escChar, unescapeAux]
  · by_cases h8 : c = bigSolidus
    · subst h8; simp [escChar, unescapeAux, h9]
    · by_cases hs : c = '/'
      · subst hs; simp [escChar, unescapeAux, h9, h8, es9, es8, e89]
      · simp [escChar, unescapeAux, h9, h8, hs]

theorem unescape_escape (s : List Char) : unescapeTitle (escapeTitle s) = s := by
  induction s with
  | nil => rfl
  | cons c rest ih =>
    rw [escapeTitle_cons]
    unfold unescapeTitle at *
    rw [unescapeAux_escChar, ih]

theorem dot_not_mem_escChar (c : Char) (h : c ≠ '.') : '.' ∉ escChar c := by
  have d9 : ¬ (('.' : Char) = bigBackSolidus) := by decide
  have d8 : ¬ (('.' : Char) = bigSolidus) := by decide
  have e89 : ¬ (bigSolidus = bigBackSolidus) := by decide
  have es9 : ¬ (('/' : Char) = bigBackSolidus) := by decide
  have es8 : ¬ (('/' : Char) = bigSolidus) := by decide
  unfold escChar
  by_cases h9 : c = bigBackSolidus
  · simp [h9, d9]
  · by_cases h8 : c = bigSolidus
    · subst h8; simp [h9, d9, d8, e89]
    · by_cases hs : c = '/'
      · subst hs; simp [d8, es9, es8]
      · simp [h9, h8, hs]
        exact fun hc => h hc.symm

theorem dot_not_mem_escapeTitle (t : List Char) (h : '.' ∉ t) : '.' ∉ escapeTitle t := by
  induction t with
  | nil => simp [escapeTitle, replaceChar]
  | cons c rest ih =>
    rw [escapeTitle_cons]
    intro hmem
    rcases List.mem_append.mp hmem with h1 | h2
    · exact dot_not_mem_escChar c (fun hc => h (hc ▸ List.mem_cons_self c rest)) h1
    · exact ih (fun hm => h (List.mem_cons_of_mem c hm)) h2

theorem lastIndexOf_eq_none (c : Char) (s : List Char) (h : c ∉ s) :
    lastIndexOf c s = none := by
  induction s with
  | nil => rfl
  | cons x xs ih =>
    have hx : ¬ (x = c) := fun hh => h (hh ▸ List.mem_cons_self x xs)
    have hxs : c ∉ xs := fun hm => h (List.mem_cons_of_mem x hm)
    simp [lastIndexOf, ih hxs, hx]

theorem lastIndexOf_append_dot (es ext : List Char) (h : '.' ∉ ext) :
    lastIndexOf '.' (es ++ '.' :: ext) = some es.length := by
  induction es with
  | nil => simp [lastIndexOf, lastIndexOf_eq_none '.' ext h]
  | cons x xs ih => simp [lastIndexOf, ih]

/-- C1 (amended): the round-trip `filenameToTitle (titleToFilename t ext) = t`
holds for every title `t` (including titles containing `/`, `\`, and the two
stand-in characters) whenever the extension is present, non-empty and free of
`.`; when the extension is absent or empty it holds for every title free of
`.`. -/
theorem c1_roundtrip_amended (t ext : List Char) :
    (ext ≠ [] → '.' ∉ ext → filenameToTitle (titleToFilename t (some ext)) = t)
    ∧ ('.' ∉ t →
        filenameToTitle (titleToFilename t none) = t
        ∧ filenameToTitle (titleToFilename t (some [])) = t) := by
  constructor
  · intro hne hdot
    have hlen : ext.length > 0 := List.length_pos.mpr hne
    simp only [titleToFilename, if_pos hlen]
    unfold filenameToTitle
    rw [lastIndexOf_append_dot _ _ hdot]
    show unescapeTitle (List.take (escapeTitle t).length (escapeTitle t ++ '.' :: ext)) = t
    rw [List.take_left, unescape_escape]
  · intro hdot
    have hesc : '.' ∉ escapeTitle t := dot_not_mem_escapeTitle t hdot
    constructor
    · unfold titleToFilename filenameToTitle
      rw [lastIndexOf_eq_none _ _ hesc]
      exact unescape_escape t
    · simp only [titleToFilename, List.length_nil, gt_iff_lt, lt_self_iff_false, if_false]
      unfold filenameToTitle
      rw [lastIndexOf_eq_none _ _ hesc]
      exact unescape_escape t

/-- Witness for C1 (amended) on the concrete title `a/b⧹` with extension `md`,
and the dot-free title `a/b` with no extension. -/
theorem c1_roundtrip_witness :
    ((['m', 'd'] : List Char) ≠ []
      ∧ '.' ∉ (['m', 'd'] : List Char)
      ∧ filenameToTitle
          (titleToFilename ['a', '/', 'b', Char.ofNat 0x29F9] (some ['m', 'd']))
          = ['a', '/', 'b', Char.ofNat 0x29F9])
    ∧ ('.' ∉ (['a', '/', 'b'] : List Char)
      ∧ filenameToTitle (titleToFilename ['a', '/', 'b'] none) = ['a', '/', 'b']) :=
  ⟨⟨by decide, by decide,
      (c1_roundtrip_amended ['a', '/', 'b', Char.ofNat 0x29F9] ['m', 'd']).1
        (by decide) (by decide)⟩,
    ⟨by decide,
      ((c1_roundtrip_amended ['a', '/', 'b'] ['m', 'd']).2 (by decide)).1⟩⟩

/-- C1 counterexample: a title containing a dot does not survive the round
trip when no extension is supplied, because `filenameToTitle` strips at the
last dot of the bare escaped title. -/
theorem c1_counterexample :
    filenameToTitle (titleToFilename ['a', '.', 'b'] none) ≠ ['a', '.', 'b'] := by
  decide

/-! ## Git ops and tree merge (octokit.tsx) -/

/-- A Git mutation operation (tagged union `write`/`delete`/`move`). -/
inductive GitOp where
  | write (path content : String)
  | delete (path : String)
  | move (pathFrom pathTo : String)
deriving DecidableEq

/-- One entry of the fetched recursive tree (`GitGetTreeResponseData.tree`). -/
structure TreeEntry where
  path : String
  mode : String
  type : String
  sha : String
deriving DecidableEq

/-- One entry of the tree submitted to the create-tree call
(`GitCreateTreeParamsTree`, with the fields `applyOps` populates). -/
structure NewTreeEntry where
  path : String
  mode : String
  type : String
  sha : Option String
  content : Option String
deriving DecidableEq

/-- The per-entry inner loop of `applyOps`: scan the ops in order; a
write/delete op whose path equals the entry's path drops the entry
(`keep = false` with `break`); a move op whose source equals the entry's
path rewrites the destination path and the scan continues. `none` means the
entry is dropped. -/
def keepDest (ops : List GitOp) (entryPath : String) (dest : String) : Option String :=
  match ops with
  | [] => some dest
  | GitOp.write p _ :: rest => if p = entryPath then none else keepDest rest entryPath dest
  | GitOp.delete p :: rest => if p = entryPath then none else keepDest rest entryPath dest
  | GitOp.move f t :: rest => keepDest rest entryPath (if f = entryPath then t else dest)

/-- The `applyOps` tree merge: keep-pass over the old tree (dropping
write/delete targets and all `tree`-type entries, rewriting move sources),
then append one blob entry per write op. -/
def applyOps (ops : List GitOp) (oldTree : List TreeEntry) : List NewTreeEntry :=
  (oldTree.filterMap (fun entry =>
    if entry.type = "tree" then none
    else
      match keepDest ops entry.path entry.path with
      | none => none
      | some dest => some ⟨dest, entry.mode, entry.type, some entry.sha, none⟩))
  ++ ops.filterMap (fun op =>
    match op with
    | GitOp.write p c => some ⟨p, "100644", "blob", none, some c⟩
    | _ => none)

theorem keepDest_dest (ops : List GitOp) (ep d dest : String)
    (h : keepDest ops ep d = some dest) :
    dest = d ∨ ∃ f, GitOp.move f dest ∈ ops := by
  induction ops generalizing d with
  | nil => simp [keepDest] at h; exact Or.inl h.symm
  | cons op rest ih =>
    cases op with
    | write p c =>
      by_cases hp : p = ep
      · simp [keepDest, hp] at h
      · simp only [keepDest, if_neg hp] at h
        rcases ih d h with h1 | ⟨f, hf⟩
        · exact Or.inl h1
        · exact Or.inr ⟨f, List.mem_cons_of_mem _ hf⟩
    | delete p =>
      by_cases hp : p = ep
      · simp [keepDest, hp] at h
      · simp only [keepDest, if_neg hp] at h
        rcases ih d h with h1 | ⟨f, hf⟩
        · exact Or.inl h1
        · exact Or.inr ⟨f, List.mem_cons_of_mem _ hf⟩
    | move f t =>
      simp only [keepDest] at h
      by_cases hf : f = ep
      · rw [if_pos hf] at h
        rcases ih t h with h1 | ⟨g, hg⟩
        · exact Or.inr ⟨f, h1 ▸ List.mem_cons_self _ _⟩
        · exact Or.inr ⟨g, List.mem_cons_of_mem _ hg⟩
      · rw [if_neg hf] at h
        rcases ih d h with h1 | ⟨g, hg⟩
        · exact Or.inl h1
        · exact Or.inr ⟨g, List.mem_cons_of_mem _ hg⟩

theorem keepDest_of_delete_mem (ops : List GitOp) (p d : String)
    (h : GitOp.delete p ∈ ops) : keepDest ops p d = none := by
  induction ops generalizing d with
  | nil => cases h
  | cons op rest ih =>
    cases op with
    | write q c =>
      by_cases hq : q = p
      · simp [keepDest, hq]
      · have hr : GitOp.delete p ∈ rest := by
          rcases List.mem_cons.mp h with h1 | h1
          · cases h1
          · exact h1
        simp only [keepDest, if_neg hq]
        exact ih d hr
    | delete q =>
      by_cases hq : q = p
      · simp [keepDest, hq]
      · have hr : GitOp.delete p ∈ rest := by
          rcases List.mem_cons.mp h with h1 | h1
          · cases h1; exact absurd rfl hq
          · exact h1
        simp only [keepDest, if_neg hq]
        exact ih d hr
    | move f t =>
      have hr : GitOp.delete p ∈ rest := by
        rcases List.mem_cons.mp h with h1 | h1
        · cases h1
        · exact h1
      simp only [keepDest]
      exact ih _ hr

/-- C2 (amended): the merged tree contains no subtree/directory entries (for
every op list and old tree); and it contains no entry for a path targeted by
a delete op, provided no write op writes that path and no move op has that
path as its destination. (The unqualified claim fails when a write or move
re-introduces the deleted path.) -/
theorem c2_tree_merge_safety (ops : List GitOp) (oldTree : List TreeEntry) :
    (∀ e ∈ applyOps ops oldTree, e.type ≠ "tree")
    ∧ (∀ p, GitOp.delete p ∈ ops →
        (∀ c, GitOp.write p c ∉ ops) →
        (∀ f, GitOp.move f p ∉ ops) →
        ∀ e ∈ applyOps ops oldTree, e.path ≠ p) := by
  constructor
  · intro e he
    rcases List.mem_append.mp he with hk | hw
    · rcases List.mem_filterMap.mp hk with ⟨entry, _, hfn⟩
      by_cases ht : entry.type = "tree"
      · simp [ht] at hfn
      · rw [if_neg ht] at hfn
        cases hkd : keepDest ops entry.path entry.path with
        | none => rw [hkd] at hfn; cases hfn
        | some dest =>
          rw [hkd] at hfn
          cases hfn
          exact ht
    · rcases List.mem_filterMap.mp hw with ⟨op, _, hfn⟩
      cases op with
      | write p c =>
        cases hfn
        show ("blob" : String) ≠ "tree"
        decide
      | delete p => cases hfn
      | move f t => cases hfn
  · intro p hdel hnw hnm e he
    rcases List.mem_append.mp he with hk | hw
    · rcases List.mem_filterMap.mp hk with ⟨entry, _, hfn⟩
      by_cases ht : entry.type = "tree"
      · simp [ht] at hfn
      · rw [if_neg ht] at hfn
        cases hkd : keepDest ops entry.path entry.path with
        | none => rw [hkd] at hfn; cases hfn
        | some dest =>
          rw [hkd] at hfn
          cases hfn
          intro hdp
          have hdest : dest = p := hdp
          rcases keepDest_dest ops entry.path entry.path dest hkd with h1 | ⟨f, hf⟩
          · rw [← h1] at hkd
            rw [hdest] at hkd
            rw [keepDest_of_delete_mem ops p p hdel] at hkd
            cases hkd
          · rw [hdest] at hf
            exact hnm f hf
    · rcases List.mem_filterMap.mp hw with ⟨op, hmem, hfn⟩
      cases op with
      | write q c =>
        cases hfn
        intro hqp
        have hq : q = p := hqp
        exact hnw c (hq ▸ hmem)
      | delete q => cases hfn
      | move f t => cases hfn

/-- Witness for C2 (amended) on the concrete spec example: old tree with a
directory node `docs` and blob `docs/a.md`, single op `delete(docs/a.md)`. -/
theorem c2_witness :
    GitOp.delete "docs/a.md" ∈ [GitOp.delete "docs/a.md"]
    ∧ (∀ e ∈ applyOps [GitOp.delete "docs/a.md"]
          [⟨"docs", "040000", "tree", "s1"⟩, ⟨"docs/a.md", "100644", "blob", "s2"⟩],
        e.type ≠ "tree")
    ∧ (∀ e ∈ applyOps [GitOp.delete "docs/a.md"]
          [⟨"docs", "040000", "tree", "s1"⟩, ⟨"docs/a.md", "100644", "blob", "s2"⟩],
        e.path ≠ "docs/a.md") :=
  ⟨by decide,
   (c2_tree_merge_safety [GitOp.delete "docs/a.md"]
      [⟨"docs", "040000", "tree", "s1"⟩, ⟨"docs/a.md", "100644", "blob", "s2"⟩]).1,
   (c2_tree_merge_safety [GitOp.delete "docs/a.md"]
      [⟨"docs", "040000", "tree", "s1"⟩, ⟨"docs/a.md", "100644", "blob", "s2"⟩]).2
     "docs/a.md" (by decide)
     (by intro c hc; simp at hc)
     (by intro f hf; simp at hf)⟩

/-- C2 counterexample: with ops `[delete b, write b y]` over an old tree
containing blob `b`, the merged tree does contain an entry for the deleted
path `b` (re-introduced by the write op), refuting the unqualified claim. -/
theorem c2_counterexample :
    applyOps [GitOp.delete "b", GitOp.write "b" "y"] [⟨"b", "100644", "blob", "s"⟩]
      = [⟨"b", "100644", "blob", none, some "y"⟩]
    ∧ GitOp.delete "b" ∈ [GitOp.delete "b", GitOp.write "b" "y"] := by
  constructor
  · rfl
  · decide

/-- Destinations of the move ops whose source is `src`, in op order. -/
def movesFrom (ops : List GitOp) (src : String) : List String :=
  ops.filterMap (fun op =>
    match op with
    | GitOp.move f t => if f = src then some t else none
    | _ => none)

theorem keepDest_of_no_hit (ops : List GitOp) (ep d : String)
    (hnw : ∀ c, GitOp.write ep c ∉ ops) (hnd : GitOp.delete ep ∉ ops) :
    keepDest ops ep d = some ((movesFrom ops ep).getLastD d) := by
  induction ops generalizing d with
  | nil => simp [keepDest, movesFrom]
  | cons op rest ih =>
    have hnw' : ∀ c, GitOp.write ep c ∉ rest :=
      fun c hc => hnw c (List.mem_cons_of_mem _ hc)
    have hnd' : GitOp.delete ep ∉ rest :=
      fun hc => hnd (List.mem_cons_of_mem _ hc)
    cases op with
    | write p c =>
      have hp : ¬ (p = ep) := fun hpe => hnw c (hpe ▸ List.mem_cons_self _ _)
      simp only [keepDest, if_neg hp, movesFrom, List.filterMap_cons]
      exact ih d hnw' hnd'
    | delete p =>
      have hp : ¬ (p = ep) := fun hpe => hnd (hpe ▸ List.mem_cons_self _ _)
      simp only [keepDest, if_neg hp, movesFrom, List.filterMap_cons]
      exact ih d hnw' hnd'
    | move f t =>
      by_cases hf : f = ep
      · subst hf
        have h1 : keepDest (GitOp.move f t :: rest) f d = keepDest rest f t := by
          simp [keepDest]
        have h2 : movesFrom (GitOp.move f t :: rest) f = t :: movesFrom rest f := by
          simp [movesFrom, List.filterMap_cons]
        rw [h1, h2, List.getLastD_cons]
        exact ih t hnw' hnd'
      · simp only [keepDest, if_neg hf, movesFrom, List.filterMap_cons]
        exact ih d hnw' hnd'

theorem mem_movesFrom (ops : List GitOp) (src d : String)
    (h : GitOp.move src d ∈ ops) : d ∈ movesFrom ops src := by
  induction ops with
  | nil => cases h
  | cons op rest ih =>
    rcases List.mem_cons.mp h with h1 | h1
    · cases h1
      simp [movesFrom, List.filterMap_cons]
    · cases op with
      | write p c => simpa [movesFrom, List.filterMap_cons] using ih h1
      | delete p => simpa [movesFrom, List.filterMap_cons] using ih h1
      | move f t =>
        by_cases hf : f = src
        · simp only [movesFrom, List.filterMap_cons, if_pos hf]
          exact List.mem_cons_of_mem _ (ih h1)
        · simpa [movesFrom, List.filterMap_cons, hf] using ih h1

theorem applyOps_kept_content_none (ops : List GitOp) (oldTree : List TreeEntry)
    (e : NewTreeEntry)
    (he : e ∈ oldTree.filterMap (fun entry =>
      if entry.type = "tree" then none
      else
        match keepDest ops entry.path entry.path with
        | none => none
        | some dest => some ⟨dest, entry.mode, entry.type, some entry.sha, none⟩)) :
    e.content = none := by
  rcases List.mem_filterMap.mp he with ⟨entry, _, hfn⟩
  by_cases ht : entry.type = "tree"
  · simp [ht] at hfn
  · rw [if_neg ht] at hfn
    cases hkd : keepDest ops entry.path entry.path with
    | none => rw [hkd] at hfn; cases hfn
    | some dest => rw [hkd] at hfn; cases hfn; rfl

theorem writes_filterMap_count (ops : List GitOp) (p c : String) :
    (ops.filterMap (fun op =>
      match op with
      | GitOp.write q d => some (⟨q, "100644", "blob", none, some d⟩ : NewTreeEntry)
      | _ => none)).count ⟨p, "100644", "blob", none, some c⟩
    = ops.count (GitOp.write p c) := by
  induction ops with
  | nil => simp
  | cons op rest ih =>
    cases op with
    | write q d =>
      by_cases hqd : GitOp.write q d = GitOp.write p c
      · cases hqd
        simp [List.filterMap_cons, List.count_cons, ih]
      · have hne : (⟨q, "100644", "blob", none, some d⟩ : NewTreeEntry)
            ≠ ⟨p, "100644", "blob", none, some c⟩ := by
          intro hh
          cases hh
          exact hqd rfl
        simp [List.filterMap_cons, List.count_cons, ih, hne, hqd]
    | delete q => simpa [List.filterMap_cons] using ih
    | move f t => simpa [List.filterMap_cons] using ih

/-- C4 (amended): every old-tree non-directory entry whose path is the source
of at least one move op and is targeted by no write and no delete op anywhere
in the batch is kept in the merged tree with its path rewritten to the
destination of the last move op having it as source, its sha and mode
unchanged; and the merged tree carries exactly one new blob entry with mode
100644 per write op, with that op's content. (The unamended claim fails when
a write/delete op ordered after the move targets the same source path.) -/
theorem c4_move_keep_and_writes (ops : List GitOp) (oldTree : List TreeEntry) :
    (∀ entry ∈ oldTree, entry.type ≠ "tree" →
      (∀ c, GitOp.write entry.path c ∉ ops) →
      GitOp.delete entry.path ∉ ops →
      ∀ d, GitOp.move entry.path d ∈ ops →
        movesFrom ops entry.path ≠ []
        ∧ (⟨(movesFrom ops entry.path).getLastD entry.path, entry.mode, entry.type,
            some entry.sha, none⟩ : NewTreeEntry) ∈ applyOps ops oldTree)
    ∧ (∀ p c, (applyOps ops oldTree).count ⟨p, "100644", "blob", none, some c⟩
        = ops.count (GitOp.write p c)) := by
  constructor
  · intro entry hmem ht hnw hnd d hmv
    have hne : movesFrom ops entry.path ≠ [] :=
      List.ne_nil_of_mem (mem_movesFrom ops entry.path d hmv)
    refine ⟨hne, ?_⟩
    apply List.mem_append_left
    apply List.mem_filterMap.mpr
    refine ⟨entry, hmem, ?_⟩
    rw [if_neg ht, keepDest_of_no_hit ops entry.path entry.path hnw hnd]
  · intro p c
    rw [applyOps, List.count_append]
    have hzero : (oldTree.filterMap (fun entry =>
        if entry.type = "tree" then none
        else
          match keepDest ops entry.path entry.path with
          | none => none
          | some dest => some ⟨dest, entry.mode, entry.type, some entry.sha, none⟩)).count
        (⟨p, "100644", "blob", none, some c⟩ : NewTreeEntry) = 0 := by
      apply List.count_eq_zero.mpr
      intro hmem
      have := applyOps_kept_content_none ops oldTree _ hmem
      simp at this
    rw [hzero, writes_filterMap_count]
    simp

/-- Witness for C4 (amended): ops `[move a b, write n hello]` over old tree
`[blob a]` keep `a` at path `b` with its sha, and append one write entry. -/
theorem c4_witness :
    ((⟨"b", "100644", "blob", some "s", none⟩ : NewTreeEntry)
      ∈ applyOps [GitOp.move "a" "b", GitOp.write "n" "hello"]
          [⟨"a", "100644", "blob", "s"⟩])
    ∧ (applyOps [GitOp.move "a" "b", GitOp.write "n" "hello"]
        [⟨"a", "100644", "blob", "s"⟩]).count
        ⟨"n", "100644", "blob", none, some "hello"⟩ = 1 :=
  ⟨((c4_move_keep_and_writes [GitOp.move "a" "b", GitOp.write "n" "hello"]
      [⟨"a", "100644", "blob", "s"⟩]).1
      ⟨"a", "100644", "blob", "s"⟩ (by decide) (by decide)
      (by intro c hc; simp at hc)
      (by intro hc; simp at hc)
      "b" (by decide)).2,
   ((c4_move_keep_and_writes [GitOp.move "a" "b", GitOp.write "n" "hello"]
      [⟨"a", "100644", "blob", "s"⟩]).2 "n" "hello").trans (by decide)⟩

/-- C4 counterexample: with ops `[move a b, delete a]` (the delete ordered
after the move) over old tree `[blob a]`, the entry is dropped entirely, so
the claim's "kept unless a write/delete is ordered before the move" fails. -/
theorem c4_counterexample :
    applyOps [GitOp.move "a" "b", GitOp.delete "a"] [⟨"a", "100644", "blob", "s"⟩]
      = [] := by
  rfl

/-! ## Commit sequencing (octokit.tsx `commit`) -/

/-- A repository configuration. The `commit` code uses only the user name,
the repo name and the token; the branch field is modelled from the spec
(`Repo` carries owner, name, access credential, branch). -/
structure Repo where
  userName : String
  repoName : String
  token : String
  branch : String
deriving DecidableEq

/-- The payload of the get-tree response: flat recursive tree plus the
`truncated` flag. -/
structure GetTreeData where
  tree : List TreeEntry
  truncated : Bool
deriving DecidableEq

/-- An error wrapper carrying the message of the failing step. -/
structure WrappedError where
  msg : String
deriving DecidableEq

/-- One remote API request issued during the commit sequence, with the
parameters the source passes (owner, repo name and the step arguments). -/
inductive GitCall where
  | getRef (owner repoName ref : String)
  | getCommit (owner repoName commitSHA : String)
  | getTree (owner repoName treeSHA : String)
  | createTree (owner repoName : String) (tree : List NewTreeEntry)
  | createCommit (owner repoName message parent tree : String)
  | updateRef (owner repoName ref sha : String) (force : Bool)
deriving DecidableEq

/-- The remote store collaborator: each field models one octokit git
primitive, returning the content-addressed identifier the source reads from
the response (`getCommit` returns `response.data.tree.sha`). -/
structure Remote where
  getRef : String → String → String → Except WrappedError String
  getCommit : String → String → String → Except WrappedError String
  getTree : String → String → String → Except WrappedError GetTreeData
  createTree : String → String → List NewTreeEntry → Except WrappedError String
  createCommit : String → String → String → String → String → Except WrappedError String
  updateRef : String → String → String → String → Bool → Except WrappedError Unit

def GitCall.isCreateTree : GitCall → Bool
  | .createTree _ _ _ => true
  | _ => false

def GitCall.isCreateCommit : GitCall → Bool
  | .createCommit _ _ _ _ _ => true
  | _ => false

def GitCall.isUpdateRef : GitCall → Bool
  | .updateRef _ _ _ _ _ => true
  | _ => false

/-- The `commit` chain: get ref, get commit, get tree (failing closed on a
truncated tree), create tree, create commit, force-update the ref; the pair
returned is the overall result together with the trace of issued requests.
As in the source, `octokitGetRef` hardwires the ref `heads/main` (ignoring
the branch of the repo configuration), and the final ref update passes
`force: true` and the literal ref `heads/main`. -/
def commit (remote : Remote) (repo : Repo) (ops : List GitOp) (commitMsg : String) :
    Except WrappedError String × List GitCall :=
  let u := repo.userName
  let r := repo.repoName
  let c1 := GitCall.getRef u r "heads/main"
  match remote.getRef u r "heads/main" with
  | .error e => (.error e, [c1])
  | .ok oldCommitSHA =>
    let c2 := GitCall.getCommit u r oldCommitSHA
    match remote.getCommit u r oldCommitSHA with
    | .error e => (.error e, [c1, c2])
    | .ok oldTreeSHA =>
      let c3 := GitCall.getTree u r oldTreeSHA
      match remote.getTree u r oldTreeSHA with
      | .error e => (.error e, [c1, c2, c3])
      | .ok treeData =>
        if treeData.truncated then
          (.error ⟨"Tree has been truncated -- handling that many files is not supported yet."⟩,
            [c1, c2, c3])
        else
          let newTree := applyOps ops treeData.tree
          let c4 := GitCall.createTree u r newTree
          match remote.createTree u r newTree with
          | .error e => (.error e, [c1, c2, c3, c4])
          | .ok newTreeSHA =>
            let c5 := GitCall.createCommit u r commitMsg oldCommitSHA newTreeSHA
            match remote.createCommit u r commitMsg oldCommitSHA newTreeSHA with
            | .error e => (.error e, [c1, c2, c3, c4, c5])
            | .ok newCommitSHA =>
              let c6 := GitCall.updateRef u r "heads/main" newCommitSHA true
              match remote.updateRef u r "heads/main" newCommitSHA true with
              | .error e => (.error e, [c1, c2, c3, c4, c5, c6])
              | .ok _ => (.ok newCommitSHA, [c1, c2, c3, c4, c5, c6])

/-- C3: when the fetched tree snapshot is flagged truncated, `commit` fails
with the truncation error and its request trace contains no create-tree
call (hence also no create-commit and no update-ref call), for every op
list. -/
theorem c3_truncated_guard (remote : Remote) (repo : Repo) (ops : List GitOp)
    (msg s1 s2 : String) (tr : List TreeEntry)
    (h1 : remote.getRef repo.userName repo.repoName "heads/main" = .ok s1)
    (h2 : remote.getCommit repo.userName repo.repoName s1 = .ok s2)
    (h3 : remote.getTree repo.userName repo.repoName s2 = .ok ⟨tr, true⟩) :
    (commit remote repo ops msg).1
      = .error ⟨"Tree has been truncated -- handling that many files is not supported yet."⟩
    ∧ ∀ call ∈ (commit remote repo ops msg).2,
        call.isCreateTree = false
        ∧ call.isCreateCommit = false
        ∧ call.isUpdateRef = false := by
  have hc : commit remote repo ops msg
      = (.error ⟨"Tree has been truncated -- handling that many files is not supported yet."⟩,
         [GitCall.getRef repo.userName repo.repoName "heads/main",
          GitCall.getCommit repo.userName repo.repoName s1,
          GitCall.getTree repo.userName repo.repoName s2]) := by
    simp [commit, h1, h2, h3]
  rw [hc]
  refine ⟨rfl, ?_⟩
  intro call hcall
  rcases List.mem_cons.mp hcall with h | h
  · subst h; exact ⟨rfl, rfl, rfl⟩
  rcases List.mem_cons.mp h with h | h
  · subst h; exact ⟨rfl, rfl, rfl⟩
  rcases List.mem_cons.mp h with h | h
  · subst h; exact ⟨rfl, rfl, rfl⟩
  cases h

/-- Witness for C3 at a concrete remote whose get-tree response is flagged
truncated. -/
theorem c3_witness :
    (commit
        { getRef := fun _ _ _ => .ok "c0", getCommit := fun _ _ _ => .ok "t0",
          getTree := fun _ _ _ => .ok ⟨[], true⟩, createTree := fun _ _ _ => .ok "nt",
          createCommit := fun _ _ _ _ _ => .ok "nc", updateRef := fun _ _ _ _ _ => .ok () }
        ⟨"user", "repo", "tok", "dev"⟩ [] "msg").1
      = .error ⟨"Tree has been truncated -- handling that many files is not supported yet."⟩
    ∧ ∀ call ∈ (commit
        { getRef := fun _ _ _ => .ok "c0", getCommit := fun _ _ _ => .ok "t0",
          getTree := fun _ _ _ => .ok ⟨[], true⟩, createTree := fun _ _ _ => .ok "nt",
          createCommit := fun _ _ _ _ _ => .ok "nc", updateRef := fun _ _ _ _ _ => .ok () }
        ⟨"user", "repo", "tok", "dev"⟩ [] "msg").2,
        call.isCreateTree = false
        ∧ call.isCreateCommit = false
        ∧ call.isUpdateRef = false :=
  c3_truncated_guard
    { getRef := fun _ _ _ => .ok "c0", getCommit := fun _ _ _ => .ok "t0",
      getTree := fun _ _ _ => .ok ⟨[], true⟩, createTree := fun _ _ _ => .ok "nt",
      createCommit := fun _ _ _ _ _ => .ok "nc", updateRef := fun _ _ _ _ _ => .ok () }
    ⟨"user", "repo", "tok", "dev"⟩ [] "msg" "c0" "t0" [] rfl rfl rfl

/-- C10: `commit` ignores the branch stored in the repo configuration, its
first remote request is a read of the ref `heads/main`, and on success the
returned SHA is the one produced by the create-commit call and is
force-pushed to `heads/main`. -/
theorem c10_commit_main_ref (remote : Remote) (repo : Repo) (ops : List GitOp)
    (msg : String) :
    (∀ b, commit remote { repo with branch := b } ops msg = commit remote repo ops msg)
    ∧ (commit remote repo ops msg).2.head?
        = some (GitCall.getRef repo.userName repo.repoName "heads/main")
    ∧ (∀ sha, (commit remote repo ops msg).1 = .ok sha →
        GitCall.updateRef repo.userName repo.repoName "heads/main" sha true
          ∈ (commit remote repo ops msg).2
        ∧ ∃ parent treeSHA,
            GitCall.createCommit repo.userName repo.repoName msg parent treeSHA
              ∈ (commit remote repo ops msg).2
            ∧ remote.createCommit repo.userName repo.repoName msg parent treeSHA
              = .ok sha) := by
  refine ⟨fun b => rfl, ?_, ?_⟩
  · cases h1 : remote.getRef repo.userName repo.repoName "heads/main" with
    | error e => simp [commit, h1]
    | ok s1 =>
      cases h2 : remote.getCommit repo.userName repo.repoName s1 with
      | error e => simp [commit, h1, h2]
      | ok s2 =>
        cases h3 : remote.getTree repo.userName repo.repoName s2 with
        | error e => simp [commit, h1, h2, h3]
        | ok td =>
          cases htr : td.truncated with
          | true => simp [commit, h1, h2, h3, htr]
          | false =>
            cases h4 : remote.createTree repo.userName repo.repoName
                (applyOps ops td.tree) with
            | error e => simp [commit, h1, h2, h3, htr, h4]
            | ok s4 =>
              cases h5 : remote.createCommit repo.userName repo.repoName msg s1 s4 with
              | error e => simp [commit, h1, h2, h3, htr, h4, h5]
              | ok s5 =>
                cases h6 : remote.updateRef repo.userName repo.repoName "heads/main"
                    s5 true with
                | error e => simp [commit, h1, h2, h3, htr, h4, h5, h6]
                | ok u => simp [commit, h1, h2, h3, htr, h4, h5, h6]
  · intro sha hok
    cases h1 : remote.getRef repo.userName repo.repoName "heads/main" with
    | error e => rw [commit] at hok; simp [h1] at hok
    | ok s1 =>
      cases h2 : remote.getCommit repo.userName repo.repoName s1 with
      | error e => rw [commit] at hok; simp [h1, h2] at hok
      | ok s2 =>
        cases h3 : remote.getTree repo.userName repo.repoName s2 with
        | error e => rw [commit] at hok; simp [h1, h2, h3] at hok
        | ok td =>
          cases htr : td.truncated with
          | true => rw [commit] at hok; simp [h1, h2, h3, htr] at hok
          | false =>
            cases h4 : remote.createTree repo.userName repo.repoName
                (applyOps ops td.tree) with
            | error e => rw [commit] at hok; simp [h1, h2, h3, htr, h4] at hok
            | ok s4 =>
              cases h5 : remote.createCommit repo.userName repo.repoName msg s1 s4 with
              | error e => rw [commit] at hok; simp [h1, h2, h3, htr, h4, h5] at hok
              | ok s5 =>
                cases h6 : remote.updateRef repo.userName repo.repoName "heads/main"
                    s5 true with
                | error e => rw [commit] at hok; simp [h1, h2, h3, htr, h4, h5, h6] at hok
                | ok u =>
                  have hsha : s5 = sha := by
                    rw [commit] at hok
                    simp [h1, h2, h3, htr, h4, h5, h6] at hok
                    exact hok
                  subst hsha
                  constructor
                  · rw [commit]
                    simp [h1, h2, h3, htr, h4, h5, h6]
                  · refine ⟨s1, s4, ?_, h5⟩
                    rw [commit]
                    simp [h1, h2, h3, htr, h4, h5, h6]

/-- Witness for C10 at a concrete all-successful remote. -/
theorem c10_witness :
    ((commit
        { getRef := fun _ _ _ => .ok "c0", getCommit := fun _ _ _ => .ok "t0",
          getTree := fun _ _ _ => .ok ⟨[], false⟩, createTree := fun _ _ _ => .ok "nt",
          createCommit := fun _ _ _ _ _ => .ok "nc", updateRef := fun _ _ _ _ _ => .ok () }
        ⟨"user", "repo", "tok", "dev"⟩ [] "msg").1 = .ok "nc")
    ∧ GitCall.updateRef "user" "repo" "heads/main" "nc" true
        ∈ (commit
        { getRef := fun _ _ _ => .ok "c0", getCommit := fun _ _ _ => .ok "t0",
          getTree := fun _ _ _ => .ok ⟨[], false⟩, createTree := fun _ _ _ => .ok "nt",
          createCommit := fun _ _ _ _ _ => .ok "nc", updateRef := fun _ _ _ _ _ => .ok () }
        ⟨"user", "repo", "tok", "dev"⟩ [] "msg").2 :=
  ⟨rfl,
   ((c10_commit_main_ref
      { getRef := fun _ _ _ => .ok "c0", getCommit := fun _ _ _ => .ok "t0",
        getTree := fun _ _ _ => .ok ⟨[], false⟩, createTree := fun _ _ _ => .ok "nt",
        createCommit := fun _ _ _ _ _ => .ok "nc", updateRef := fun _ _ _ _ _ => .ok () }
      ⟨"user", "repo", "tok", "dev"⟩ [] "msg").2.2 "nc" rfl).1⟩

/-! ## Entry/link data model (types.ts via its uses in the sources) -/

/-- Repo identity. Modelled from the spec: the derived stable identity key of
a repo is owner+name (`repo.ts` with `getRepoId` is not among the sources). -/
def getRepoId (r : Repo) : String := r.userName ++ "/" ++ r.repoName

/-- Lower-casing a string character by character (JavaScript `toLowerCase`
restricted to the per-character mapping). -/
def lowerStr (s : String) : String := String.mk (s.data.map Char.toLower)

/-- Note content: repo, location, extension, timestamps, raw url, the
markdown text, rendered html and the extracted outgoing link targets. -/
structure ContentNote where
  repo : Repo
  location : String
  extension : String
  timeCreated : Nat
  timeUpdated : Nat
  rawUrl : Option String
  text : String
  html : String
  links : List String
deriving DecidableEq

/-- Document content: like a note but without materialized text. -/
structure ContentDoc where
  repo : Repo
  location : String
  extension : String
  timeCreated : Nat
  timeUpdated : Nat
  rawUrl : Option String
deriving DecidableEq

/-- The content of a file entry (note or document). -/
inductive ContentFile where
  | note (c : ContentNote)
  | doc (c : ContentDoc)
deriving DecidableEq

/-- A derived file entry (Note or Document). -/
structure EntryFile where
  title : String
  priority : Nat
  labels : List String
  content : ContentFile
  key : String
deriving DecidableEq

def EntryFile.isNote : EntryFile → Bool
  | ⟨_, _, _, ContentFile.note _, _⟩ => true
  | _ => false

def EntryFile.noteLinks : EntryFile → List String
  | ⟨_, _, _, ContentFile.note c, _⟩ => c.links
  | _ => []

def EntryFile.repo : EntryFile → Repo
  | ⟨_, _, _, ContentFile.note c, _⟩ => c.repo
  | ⟨_, _, _, ContentFile.doc c, _⟩ => c.repo

def EntryFile.location : EntryFile → String
  | ⟨_, _, _, ContentFile.note c, _⟩ => c.location
  | ⟨_, _, _, ContentFile.doc c, _⟩ => c.location

/-- Link content: target, back references, standalone owner, referencing
repos and locations, own labels. -/
structure ContentLink where
  target : String
  referencedBy : List EntryFile
  standaloneRepo : Option Repo
  refRepos : List Repo
  refLocations : List String
  ownLabels : List String
deriving DecidableEq

/-- A link entry. -/
structure EntryLink where
  title : String
  priority : Nat
  labels : List String
  content : ContentLink
  key : String
deriving DecidableEq

/-! ## Label utilities (label_utils.ts, modelled from the spec) -/

/-- Lexicographic comparison of char lists by the character order (the
comparison underlying string ordering). -/
def charListLe : List Char → List Char → Bool
  | [], _ => true
  | _ :: _, [] => false
  | a :: as, b :: bs =>
    if a < b then true else if b < a then false else charListLe as bs

def labelLe (a b : String) : Bool := charListLe a.data b.data

/-- Insert into a sorted list, before the first element that `a` may precede
(a stable insertion). -/
def ordInsert (le : α → α → Bool) (a : α) : List α → List α
  | [] => [a]
  | b :: l => if le a b then a :: b :: l else b :: ordInsert le a l

/-- Insertion sort, a stable sort. -/
def insSort (le : α → α → Bool) : List α → List α
  | [] => []
  | a :: l => ordInsert le a (insSort le l)

/-- Modelled from the spec: `label_utils.normalizeLabels` (the module is not
among the sources) produces the deduplicated, case-insensitively normalized
(lower-cased), sorted label list. -/
def normalizeLabels (ls : List String) : List String :=
  insSort labelLe ((ls.map lowerStr).dedup)

/-- The `mergeLabels` helper of the source: normalize the concatenation. -/
def mergeLabels (existingLabels incomingLabels : List String) : List String :=
  normalizeLabels (existingLabels ++ incomingLabels)

/-- The `mergeRepos` helper: append the incoming repo unless a repo with the
same id is already present. -/
def mergeRepos (existingRepos : List Repo) (incomingRepo : Repo) : List Repo :=
  if existingRepos.any (fun r => getRepoId r == getRepoId incomingRepo) then existingRepos
  else existingRepos ++ [incomingRepo]

/-- The `mergeLocations` helper: append the incoming location unless already
present. -/
def mergeLocations (existingLocations : List String) (incomingLocation : String) :
    List String :=
  if existingLocations.any (fun l => l == incomingLocation) then existingLocations
  else existingLocations ++ [incomingLocation]

/-! ## Link-graph reconciliation (NoteEditor.tsx `recomputeLinkEntries`)

The source mutates shared link objects held both in the result list and in
the `linkMap` lookup. The state is modelled with the result list represented
by the targets of the links pushed so far, resolved against the final store
when the function returns; the `linkInserted` map of the source always
contains exactly the targets already pushed to the result, so it is
represented by membership in the result list. -/

/-- The key recomputation for link entries (`recomputeKey`). -/
def mkLinkKey (target : String) : String := "__link_" ++ target

/-- The reset applied to every existing link at the start of reconciliation:
clear the inferred fields, set labels back to the own labels. -/
def resetLink (link : EntryLink) : EntryLink :=
  { link with
    labels := link.content.ownLabels,
    content := { link.content with referencedBy := [], refRepos := [], refLocations := [] } }

/-- A link synthesized for a fresh target: title is the target, labels are
inherited from the note, single back reference. -/
def synthLink (entry : EntryFile) (target : String) : EntryLink :=
  { title := target
    priority := 0
    labels := entry.labels
    content :=
      { target := target
        referencedBy := [entry]
        standaloneRepo := none
        refRepos := [entry.repo]
        refLocations := [entry.location]
        ownLabels := [] }
    key := mkLinkKey target }

/-- Updating an existing link for one referencing note: append the back
reference, merge repo, location and labels. -/
def touchLink (link : EntryLink) (entry : EntryFile) : EntryLink :=
  { link with
    labels := mergeLabels link.labels entry.labels
    content :=
      { link.content with
        referencedBy := link.content.referencedBy ++ [entry]
        refRepos := mergeRepos link.content.refRepos entry.repo
        refLocations := mergeLocations link.content.refLocations entry.location } }

/-- The reconciliation state: result-list targets in push order, and the
store of link records (the `linkMap`, keyed by target). -/
structure RState where
  result : List String
  store : List EntryLink
deriving DecidableEq

/-- Lookup in the store by target (the `target in linkMap` test and read). -/
def findLink : List EntryLink → String → Option EntryLink
  | [], _ => none
  | l :: ls, t => if l.content.target = t then some l else findLink ls t

/-- Write-back of a mutated link record under its target key. -/
def updateLink (ls : List EntryLink) (t : String) (l' : EntryLink) : List EntryLink :=
  ls.map (fun l => if l.content.target = t then l' else l)

/-- One step of the first loop of `recomputeLinkEntries`: reset the link;
drop it if its target is already in the map; otherwise add it to the map and,
when standalone, push it to the result. -/
def step1 (s : RState) (link : EntryLink) : RState :=
  let link' := resetLink link
  match findLink s.store link'.content.target with
  | none =>
    if link'.content.standaloneRepo.isSome then
      { result := s.result ++ [link'.content.target], store := s.store ++ [link'] }
    else
      { result := s.result, store := s.store ++ [link'] }
  | some _ => s

def phase1 : RState → List EntryLink → RState
  | s, [] => s
  | s, l :: ls => phase1 (step1 s l) ls

/-- One step of the second loop, for one outgoing link target of one note:
synthesize a fresh link, or update the existing one and push it to the
result on first touch. -/
def step2 (s : RState) (entry : EntryFile) (t : String) : RState :=
  match findLink s.store t with
  | none =>
    let newLink := synthLink entry t
    { result := s.result ++ [t], store := s.store ++ [newLink] }
  | some l =>
    let l' := touchLink l entry
    let store' := updateLink s.store t l'
    if t ∈ s.result then { result := s.result, store := store' }
    else { result := s.result ++ [t], store := store' }

def phase2Links (entry : EntryFile) : RState → List String → RState
  | s, [] => s
  | s, t :: ts => phase2Links entry (step2 s entry t) ts

def phase2 : RState → List EntryFile → RState
  | s, [] => s
  | s, e :: es => phase2 (if e.isNote then phase2Links e s e.noteLinks else s) es

/-- The `recomputeLinkEntries` function: reset-and-index the existing links,
walk the notes' outgoing targets, and return the pushed links (resolved
against the final store, reflecting the in-place mutation of the source). -/
def recomputeLinkEntries (fileEntries : List EntryFile)
    (existingLinkEntries : List EntryLink) : List EntryLink :=
  let s1 := phase1 ⟨[], []⟩ existingLinkEntries
  let s2 := phase2 s1 fileEntries
  s2.result.filterMap (findLink s2.store)

/-! ## Canonical ordering (`sortAndIndexEntries`, `recomputeEntries`) -/

/-- The content of a generic entry. -/
inductive EntryContent where
  | file (c : ContentFile)
  | link (c : ContentLink)
deriving DecidableEq

/-- A generic entry with its canonical position `idx`. -/
structure Entry where
  title : String
  priority : Nat
  labels : List String
  content : EntryContent
  key : String
  idx : Nat
deriving DecidableEq

def Entry.ofFile (e : EntryFile) : Entry :=
  ⟨e.title, e.priority, e.labels, .file e.content, e.key, 0⟩

def Entry.ofLink (e : EntryLink) : Entry :=
  ⟨e.title, e.priority, e.labels, .link e.content, e.key, 0⟩

/-- The numeric content-kind rank (`entryKindNumericValues`):
Note 0, Document 1, Link 2. -/
def EntryContent.kindRank : EntryContent → Nat
  | .file (.note _) => 0
  | .file (.doc _) => 1
  | .link _ => 2

/-- The sort comparator as a may-precede relation: by kind rank when the
kinds differ, else case-insensitively by title (the `localeCompare` of the
lower-cased titles, modelled as lexicographic character comparison). -/
def entryLe (a b : Entry) : Bool :=
  if a.content.kindRank = b.content.kindRank then
    charListLe (lowerStr a.title).data (lowerStr b.title).data
  else
    decide (a.content.kindRank < b.content.kindRank)

/-- Assign `idx` by position, starting from `i`. -/
def assignIdxFrom (i : Nat) : List Entry → List Entry
  | [] => []
  | e :: es => { e with idx := i } :: assignIdxFrom (i + 1) es

/-- The `sortAndIndexEntries` function: stable-sort by the comparator (the
ES2019 `Array.sort` is stable; a stable sort with a total preorder comparator
has a unique output, modelled by insertion sort), then assign `idx` by final
position. -/
def sortAndIndexEntries (entries : List Entry) : List Entry :=
  assignIdxFrom 0 (insSort entryLe entries)

/-- The `recomputeEntries` function: recompute the link entries, concatenate
file and link entries, sort and index. -/
def recomputeEntries (fileEntries : List EntryFile)
    (existingLinkEntries : List EntryLink) : List EntryLink × List Entry :=
  let linkEntries := recomputeLinkEntries fileEntries existingLinkEntries
  let entries := fileEntries.map Entry.ofFile ++ linkEntries.map Entry.ofLink
  (linkEntries, sortAndIndexEntries entries)

/-! ## Characterization of the reconciliation (proof machinery) -/

/-- The stream of (note, outgoing target) pairs walked by the second loop. -/
def stream : List EntryFile → List (EntryFile × String)
  | [] => []
  | e :: es => (if e.isNote then e.noteLinks.map (fun t => (e, t)) else []) ++ stream es

/-- The notes touching a target, in stream order. -/
def touches (st : List (EntryFile × String)) (t : String) : List EntryFile :=
  (st.filter (fun p => p.2 == t)).map Prod.fst

/-- The targets pushed by the second loop: first occurrences not already
inserted. -/
def newTargets : List (EntryFile × String) → List String → List String
  | [], _ => []
  | (_, t) :: rest, already =>
    if t ∈ already then newTargets rest already
    else t :: newTargets rest (already ++ [t])

/-- Fold the per-note update over a touch list. -/
def applyTouches (l : EntryLink) (es : List EntryFile) : EntryLink :=
  es.foldl touchLink l

/-- The reset links of the first loop, first occurrence per target. -/
def dedupReset : List EntryLink → List String → List EntryLink
  | [], _ => []
  | l :: ls, seen =>
    if l.content.target ∈ seen then dedupReset ls seen
    else resetLink l :: dedupReset ls (seen ++ [l.content.target])

def targetsOf (ls : List EntryLink) : List String :=
  ls.map (fun l => l.content.target)

/-- The final record the store holds for a target, as a function of the
post-first-loop state and the stream. -/
def recFor (s : RState) (st : List (EntryFile × String)) (t : String) : Option EntryLink :=
  match findLink s.store t with
  | some r => some (applyTouches r (touches st t))
  | none =>
    match touches st t with
    | [] => none
    | e :: es => some (applyTouches (synthLink e t) es)

def standaloneB (l : EntryLink) : Bool := l.content.standaloneRepo.isSome

/-- Closed form of `recomputeLinkEntries`. -/
def linkOutput (fileEntries : List EntryFile) (existingLinkEntries : List EntryLink) :
    List EntryLink :=
  let d := dedupReset existingLinkEntries []
  let r1 := (d.filter standaloneB).map (fun l => l.content.target)
  let st := stream fileEntries
  (r1 ++ newTargets st r1).filterMap (recFor ⟨r1, d⟩ st)

theorem touchLink_target (l : EntryLink) (e : EntryFile) :
    (touchLink l e).content.target = l.content.target := rfl

theorem resetLink_target (l : EntryLink) :
    (resetLink l).content.target = l.content.target := rfl

theorem applyTouches_target (es : List EntryFile) (l : EntryLink) :
    (applyTouches l es).content.target = l.content.target := by
  induction es generalizing l with
  | nil => rfl
  | cons e es ih =>
    show (applyTouches (touchLink l e) es).content.target = _
    rw [ih, touchLink_target]

theorem touchLink_standalone (l : EntryLink) (e : EntryFile) :
    (touchLink l e).content.standaloneRepo = l.content.standaloneRepo := rfl

theorem applyTouches_standalone (es : List EntryFile) (l : EntryLink) :
    (applyTouches l es).content.standaloneRepo = l.content.standaloneRepo := by
  induction es generalizing l with
  | nil => rfl
  | cons e es ih =>
    show (applyTouches (touchLink l e) es).content.standaloneRepo = _
    rw [ih, touchLink_standalone]

theorem resetLink_resetLink (l : EntryLink) : resetLink (resetLink l) = resetLink l := rfl

theorem resetLink_touchLink (l : EntryLink) (e : EntryFile) :
    resetLink (touchLink l e) = resetLink l := rfl

theorem resetLink_applyTouches (es : List EntryFile) (l : EntryLink) :
    resetLink (applyTouches l es) = resetLink l := by
  induction es generalizing l with
  | nil => rfl
  | cons e es ih =>
    simp [applyTouches, List.foldl_cons] at *
    rw [ih, resetLink_touchLink]

theorem findLink_eq_none_iff (ls : List EntryLink) (t : String) :
    findLink ls t = none ↔ t ∉ targetsOf ls := by
  induction ls with
  | nil => simp [findLink, targetsOf]
  | cons l ls ih =>
    by_cases h : l.content.target = t
    · simp [findLink, h, targetsOf]
    · rw [findLink, if_neg h, ih]
      unfold targetsOf
      simp only [List.map_cons, List.mem_cons]
      constructor
      · intro hn hor
        rcases hor with h1 | h1
        · exact h h1.symm
        · exact hn h1
      · intro hn h1
        exact hn (Or.inr h1)

theorem findLink_some_target (ls : List EntryLink) (t : String) (l : EntryLink)
    (h : findLink ls t = some l) : l.content.target = t := by
  induction ls with
  | nil => cases h
  | cons x ls ih =>
    by_cases hx : x.content.target = t
    · rw [findLink, if_pos hx] at h
      cases h
      exact hx
    · rw [findLink, if_neg hx] at h
      exact ih h

theorem findLink_some_mem (ls : List EntryLink) (t : String) (l : EntryLink)
    (h : findLink ls t = some l) : l ∈ ls := by
  induction ls with
  | nil => cases h
  | cons x ls ih =>
    by_cases hx : x.content.target = t
    · rw [findLink, if_pos hx] at h
      cases h
      exact List.mem_cons_self _ _
    · rw [findLink, if_neg hx] at h
      exact List.mem_cons_of_mem _ (ih h)

theorem findLink_append_some (ls1 ls2 : List EntryLink) (t : String) (l : EntryLink)
    (h : findLink ls1 t = some l) : findLink (ls1 ++ ls2) t = some l := by
  induction ls1 with
  | nil => cases h
  | cons x ls ih =>
    by_cases hx : x.content.target = t
    · rw [findLink, if_pos hx] at h
      cases h
      simp [findLink, hx]
    · rw [findLink, if_neg hx] at h
      simpa [findLink, hx] using ih h

theorem findLink_append_none (ls1 ls2 : List EntryLink) (t : String)
    (h : findLink ls1 t = none) : findLink (ls1 ++ ls2) t = findLink ls2 t := by
  induction ls1 with
  | nil => simp [findLink]
  | cons x ls ih =>
    by_cases hx : x.content.target = t
    · rw [findLink, if_pos hx] at h
      cases h
    · rw [findLink, if_neg hx] at h
      simpa [findLink, hx] using ih h

theorem findLink_updateLink_self (ls : List EntryLink) (t : String) (l' : EntryLink)
    (hl : l'.content.target = t) :
    findLink (updateLink ls t l') t = (findLink ls t).map (fun _ => l') := by
  induction ls with
  | nil => simp [findLink, updateLink]
  | cons x ls ih =>
    by_cases hx : x.content.target = t
    · simp [updateLink, findLink, hx, hl]
    · simp only [updateLink, List.map_cons, if_neg hx]
      rw [findLink, if_neg hx, findLink, if_neg hx]
      exact ih

theorem findLink_updateLink_ne (ls : List EntryLink) (t t' : String) (l' : EntryLink)
    (hne : t' ≠ t) (hl : l'.content.target = t) :
    findLink (updateLink ls t l') t' = findLink ls t' := by
  induction ls with
  | nil => simp [findLink, updateLink]
  | cons x ls ih =>
    by_cases hx : x.content.target = t
    · have hx' : ¬ (x.content.target = t') := fun hh => hne (hh.symm.trans hx)
      have hl' : ¬ (l'.content.target = t') := fun hh => hne (hh.symm.trans hl)
      simp only [updateLink, List.map_cons, if_pos hx]
      rw [findLink, if_neg hl', findLink, if_neg hx']
      exact ih
    · simp only [updateLink, List.map_cons, if_neg hx]
      rw [findLink, findLink]
      by_cases hx' : x.content.target = t'
      · simp [hx']
      · rw [if_neg hx', if_neg hx']
        exact ih

theorem resetLink_standalone (l : EntryLink) :
    (resetLink l).content.standaloneRepo = l.content.standaloneRepo := rfl

theorem targetsOf_append (a b : List EntryLink) :
    targetsOf (a ++ b) = targetsOf a ++ targetsOf b := by
  simp [targetsOf]

theorem findLink_isSome_of_mem_targets (ls : List EntryLink) (t : String)
    (h : t ∈ targetsOf ls) : (findLink ls t).isSome := by
  cases hf : findLink ls t with
  | none => exact absurd h ((findLink_eq_none_iff ls t).mp hf)
  | some l => rfl

theorem applyTouches_cons (l : EntryLink) (e : EntryFile) (es : List EntryFile) :
    applyTouches l (e :: es) = applyTouches (touchLink l e) es := rfl

theorem phase1_store (L : List EntryLink) (s : RState) :
    (phase1 s L).store = s.store ++ dedupReset L (targetsOf s.store) := by
  induction L generalizing s with
  | nil => simp [phase1, dedupReset]
  | cons l ls ih =>
    show (phase1 (step1 s l) ls).store = _
    by_cases ht : l.content.target ∈ targetsOf s.store
    · have hf : (findLink s.store l.content.target).isSome :=
        findLink_isSome_of_mem_targets _ _ ht
      rcases Option.isSome_iff_exists.mp hf with ⟨x, hx⟩
      have hstep : step1 s l = s := by
        dsimp only [step1]
        rw [resetLink_target, hx]
      rw [hstep, ih]
      rw [dedupReset, if_pos ht]
    · have hf : findLink s.store l.content.target = none :=
        (findLink_eq_none_iff _ _).mpr ht
      rw [dedupReset, if_neg ht]
      by_cases hs : l.content.standaloneRepo.isSome
      · have hstep : step1 s l
            = ⟨s.result ++ [l.content.target], s.store ++ [resetLink l]⟩ := by
          dsimp only [step1]
          rw [resetLink_target, resetLink_standalone, hf]
          simp [resetLink_standalone, hs]
        rw [hstep, ih]
        have htg : targetsOf (s.store ++ [resetLink l])
            = targetsOf s.store ++ [l.content.target] := by
          rw [targetsOf_append]
          rfl
        rw [htg]
        simp
      · have hstep : step1 s l = ⟨s.result, s.store ++ [resetLink l]⟩ := by
          dsimp only [step1]
          rw [resetLink_target, resetLink_standalone, hf]
          simp [resetLink_standalone, hs]
        rw [hstep, ih]
        have htg : targetsOf (s.store ++ [resetLink l])
            = targetsOf s.store ++ [l.content.target] := by
          rw [targetsOf_append]
          rfl
        rw [htg]
        simp

theorem phase1_result (L : List EntryLink) (s : RState) :
    (phase1 s L).result
      = s.result ++ ((dedupReset L (targetsOf s.store)).filter standaloneB).map
          (fun l => l.content.target) := by
  induction L generalizing s with
  | nil => simp [phase1, dedupReset]
  | cons l ls ih =>
    show (phase1 (step1 s l) ls).result = _
    by_cases ht : l.content.target ∈ targetsOf s.store
    · have hf : (findLink s.store l.content.target).isSome :=
        findLink_isSome_of_mem_targets _ _ ht
      rcases Option.isSome_iff_exists.mp hf with ⟨x, hx⟩
      have hstep : step1 s l = s := by
        dsimp only [step1]
        rw [resetLink_target, hx]
      rw [hstep, ih]
      rw [dedupReset, if_pos ht]
    · have hf : findLink s.store l.content.target = none :=
        (findLink_eq_none_iff _ _).mpr ht
      rw [dedupReset, if_neg ht]
      by_cases hs : l.content.standaloneRepo.isSome
      · have hstep : step1 s l
            = ⟨s.result ++ [l.content.target], s.store ++ [resetLink l]⟩ := by
          dsimp only [step1]
          rw [resetLink_target, resetLink_standalone, hf]
          simp [resetLink_standalone, hs]
        rw [hstep, ih]
        have htg : targetsOf (s.store ++ [resetLink l])
            = targetsOf s.store ++ [l.content.target] := by
          rw [targetsOf_append]
          rfl
        rw [htg]
        have hfs : standaloneB (resetLink l) = true := by
          unfold standaloneB
          rw [resetLink_standalone]
          exact hs
        simp [List.filter_cons, hfs]
        rfl
      · have hstep : step1 s l = ⟨s.result, s.store ++ [resetLink l]⟩ := by
          dsimp only [step1]
          rw [resetLink_target, resetLink_standalone, hf]
          simp [resetLink_standalone, hs]
        rw [hstep, ih]
        have htg : targetsOf (s.store ++ [resetLink l])
            = targetsOf s.store ++ [l.content.target] := by
          rw [targetsOf_append]
          rfl
        rw [htg]
        have hfs : standaloneB (resetLink l) = false := by
          unfold standaloneB
          rw [resetLink_standalone]
          simpa using hs
        simp [List.filter_cons, hfs]

def phase2S : RState → List (EntryFile × String) → RState
  | s, [] => s
  | s, (e, t) :: rest => phase2S (step2 s e t) rest

theorem phase2S_append (st1 st2 : List (EntryFile × String)) (s : RState) :
    phase2S s (st1 ++ st2) = phase2S (phase2S s st1) st2 := by
  induction st1 generalizing s with
  | nil => rfl
  | cons p rest ih =>
    cases p with
    | mk e t => exact ih (step2 s e t)

theorem phase2Links_eq (e : EntryFile) (ts : List String) (s : RState) :
    phase2Links e s ts = phase2S s (ts.map (fun t => (e, t))) := by
  induction ts generalizing s with
  | nil => rfl
  | cons t ts ih => exact ih (step2 s e t)

theorem phase2_eq (F : List EntryFile) (s : RState) :
    phase2 s F = phase2S s (stream F) := by
  induction F generalizing s with
  | nil => rfl
  | cons e es ih =>
    show phase2 (if e.isNote then phase2Links e s e.noteLinks else s) es = _
    rw [stream, phase2S_append]
    cases hn : e.isNote with
    | true =>
      simp only [eq_self_iff_true, if_true]
      rw [ih, phase2Links_eq]
    | false =>
      rw [if_neg (by simp)]
      rw [ih]
      rfl

theorem touches_cons (e : EntryFile) (t0 : String) (st : List (EntryFile × String))
    (t : String) :
    touches ((e, t0) :: st) t = if t0 = t then e :: touches st t else touches st t := by
  by_cases h : t0 = t
  · simp [touches, List.filter_cons, h]
  · simp [touches, List.filter_cons, h]

theorem step2_store (s : RState) (e : EntryFile) (t : String) :
    (step2 s e t).store
      = match findLink s.store t with
        | none => s.store ++ [synthLink e t]
        | some l => updateLink s.store t (touchLink l e) := by
  unfold step2
  cases findLink s.store t with
  | none => rfl
  | some l =>
    by_cases hm : t ∈ s.result
    · simp [hm]
    · simp [hm]

theorem step2_result (s : RState) (e : EntryFile) (t : String) :
    (step2 s e t).result
      = match findLink s.store t with
        | none => s.result ++ [t]
        | some _ => if t ∈ s.result then s.result else s.result ++ [t] := by
  unfold step2
  cases findLink s.store t with
  | none => rfl
  | some l =>
    by_cases hm : t ∈ s.result
    · simp [hm]
    · simp [hm]

theorem phase2S_store_char (st : List (EntryFile × String)) (s : RState) (t : String) :
    findLink (phase2S s st).store t = recFor s st t := by
  induction st generalizing s with
  | nil =>
    cases h : findLink s.store t with
    | none => simp [phase2S, recFor, touches, h]
    | some r => simp [phase2S, recFor, touches, h, applyTouches]
  | cons p rest ih =>
    cases p with
    | mk e t0 =>
      show findLink (phase2S (step2 s e t0) rest).store t = _
      rw [ih]
      by_cases ht0 : t0 = t
      · subst ht0
        cases hf : findLink s.store t0 with
        | some r =>
          have htg : (touchLink r e).content.target = t0 := by
            rw [touchLink_target]
            exact findLink_some_target _ _ _ hf
          have hfind : findLink (step2 s e t0).store t0 = some (touchLink r e) := by
            rw [step2_store, hf, findLink_updateLink_self _ _ _ htg, hf]
            rfl
          have hL : recFor (step2 s e t0) rest t0
              = some (applyTouches (touchLink r e) (touches rest t0)) := by
            unfold recFor
            rw [hfind]
          have hR : recFor s ((e, t0) :: rest) t0
              = some (applyTouches r (e :: touches rest t0)) := by
            unfold recFor
            rw [hf, touches_cons, if_pos rfl]
          rw [hL, hR, applyTouches_cons]
        | none =>
          have hfind : findLink (step2 s e t0).store t0 = some (synthLink e t0) := by
            rw [step2_store, hf, findLink_append_none _ _ _ hf]
            simp [findLink, synthLink]
          have hL : recFor (step2 s e t0) rest t0
              = some (applyTouches (synthLink e t0) (touches rest t0)) := by
            unfold recFor
            rw [hfind]
          have hR : recFor s ((e, t0) :: rest) t0
              = some (applyTouches (synthLink e t0) (touches rest t0)) := by
            unfold recFor
            rw [hf, touches_cons, if_pos rfl]
          rw [hL, hR]
      · have hne : t ≠ t0 := fun hh => ht0 hh.symm
        have hfind : findLink (step2 s e t0).store t = findLink s.store t := by
          rw [step2_store]
          cases hf : findLink s.store t0 with
          | none =>
            cases hft : findLink s.store t with
            | none =>
              rw [findLink_append_none _ _ _ hft]
              simp [findLink, synthLink, ht0]
            | some l => exact findLink_append_some _ _ _ _ hft
          | some r =>
            have htg : (touchLink r e).content.target = t0 := by
              rw [touchLink_target]
              exact findLink_some_target _ _ _ hf
            exact findLink_updateLink_ne _ _ _ _ hne htg
        unfold recFor
        rw [hfind, touches_cons, if_neg ht0]

/-- The invariant of the reconciliation state: every pushed target is
present in the store. -/
def StateInv (s : RState) : Prop := ∀ t ∈ s.result, (findLink s.store t).isSome

theorem step2_inv (s : RState) (e : EntryFile) (t : String) (h : StateInv s) :
    StateInv (step2 s e t) := by
  intro t' ht'
  rw [step2_result] at ht'
  rw [step2_store]
  cases hf : findLink s.store t with
  | none =>
    rw [hf] at ht'
    rcases List.mem_append.mp ht' with h1 | h1
    · rcases Option.isSome_iff_exists.mp (h t' h1) with ⟨l, hl⟩
      rw [findLink_append_some _ _ _ _ hl]
      rfl
    · have ht : t' = t := by simpa using h1
      subst ht
      rw [findLink_append_none _ _ _ hf]
      simp [findLink, synthLink]
  | some r =>
    rw [hf] at ht'
    have htg : (touchLink r e).content.target = t := by
      rw [touchLink_target]
      exact findLink_some_target _ _ _ hf
    have hmem : t' ∈ s.result ++ [t] := by
      by_cases hm : t ∈ s.result
      · rw [if_pos hm] at ht'
        exact List.mem_append_left _ ht'
      · rw [if_neg hm] at ht'
        exact ht'
    by_cases ht : t' = t
    · subst ht
      rw [findLink_updateLink_self _ _ _ htg, hf]
      rfl
    · rw [findLink_updateLink_ne _ _ _ _ ht htg]
      rcases List.mem_append.mp hmem with h1 | h1
      · exact h t' h1
      · exact absurd (by simpa using h1) ht

theorem phase2S_result_char (st : List (EntryFile × String)) (s : RState)
    (hInv : StateInv s) :
    (phase2S s st).result = s.result ++ newTargets st s.result := by
  induction st generalizing s with
  | nil => simp [phase2S, newTargets]
  | cons p rest ih =>
    cases p with
    | mk e t0 =>
      show (phase2S (step2 s e t0) rest).result = _
      cases hf : findLink s.store t0 with
      | none =>
        have hres : (step2 s e t0).result = s.result ++ [t0] := by
          rw [step2_result, hf]
        have hnm : t0 ∉ s.result := by
          intro hm
          have hsm := hInv t0 hm
          rw [hf] at hsm
          cases hsm
        rw [ih _ (step2_inv s e t0 hInv), hres, newTargets, if_neg hnm,
          List.append_assoc]
        rfl
      | some r =>
        by_cases hm : t0 ∈ s.result
        · have hres : (step2 s e t0).result = s.result := by
            rw [step2_result, hf, if_pos hm]
          rw [ih _ (step2_inv s e t0 hInv), hres, newTargets, if_pos hm]
        · have hres : (step2 s e t0).result = s.result ++ [t0] := by
            rw [step2_result, hf, if_neg hm]
          rw [ih _ (step2_inv s e t0 hInv), hres, newTargets, if_neg hm,
            List.append_assoc]
          rfl

theorem recomputeLinkEntries_eq (fileEntries : List EntryFile)
    (existingLinkEntries : List EntryLink) :
    recomputeLinkEntries fileEntries existingLinkEntries
      = linkOutput fileEntries existingLinkEntries := by
  unfold recomputeLinkEntries linkOutput
  dsimp only
  have hs1 : phase1 ⟨[], []⟩ existingLinkEntries
      = ⟨((dedupReset existingLinkEntries []).filter standaloneB).map
          (fun l => l.content.target),
         dedupReset existingLinkEntries []⟩ := by
    have h1 := phase1_store existingLinkEntries ⟨[], []⟩
    have h2 := phase1_result existingLinkEntries ⟨[], []⟩
    simp only [targetsOf, List.map_nil] at h1 h2
    cases hp : phase1 ⟨[], []⟩ existingLinkEntries with
    | mk r st =>
      rw [hp] at h1 h2
      simp at h1 h2
      rw [h1, h2]
  rw [hs1, phase2_eq]
  set d := dedupReset existingLinkEntries [] with hd
  set r1 := (d.filter standaloneB).map (fun l => l.content.target) with hr1
  have hInv : StateInv ⟨r1, d⟩ := by
    intro t ht
    apply findLink_isSome_of_mem_targets
    rw [hr1] at ht
    rcases List.mem_map.mp ht with ⟨l, hl, hlt⟩
    have : l ∈ d := List.mem_of_mem_filter hl
    exact hlt ▸ List.mem_map.mpr ⟨l, this, rfl⟩
  rw [phase2S_result_char _ _ hInv]
  show List.filterMap _ _ = _
  apply List.filterMap_congr
  intro t _
  exact phase2S_store_char (stream fileEntries) ⟨r1, d⟩ t

theorem dedupReset_not_mem_seen (L : List EntryLink) (seen : List String) (t : String)
    (h : t ∈ targetsOf (dedupReset L seen)) : t ∉ seen := by
  induction L generalizing seen with
  | nil => simp [dedupReset, targetsOf] at h
  | cons l ls ih =>
    rw [dedupReset] at h
    by_cases hm : l.content.target ∈ seen
    · rw [if_pos hm] at h
      exact ih seen h
    · rw [if_neg hm] at h
      unfold targetsOf at h
      rcases List.mem_cons.mp h with h1 | h1
      · have h1' : t = l.content.target := h1
        exact h1' ▸ hm
      · intro hs
        exact ih (seen ++ [l.content.target]) h1 (List.mem_append_left _ hs)

theorem dedupReset_targets_nodup (L : List EntryLink) (seen : List String) :
    (targetsOf (dedupReset L seen)).Nodup := by
  induction L generalizing seen with
  | nil => simp [dedupReset, targetsOf]
  | cons l ls ih =>
    rw [dedupReset]
    by_cases hm : l.content.target ∈ seen
    · rw [if_pos hm]
      exact ih seen
    · rw [if_neg hm]
      unfold targetsOf
      rw [List.map_cons]
      refine List.Nodup.cons ?_ (ih (seen ++ [l.content.target]))
      intro hmem
      rw [resetLink_target] at hmem
      exact dedupReset_not_mem_seen ls _ _ hmem
        (List.mem_append_right _ (List.mem_singleton.mpr rfl))

theorem dedupReset_shape (L : List EntryLink) (seen : List String) (x : EntryLink)
    (h : x ∈ dedupReset L seen) : ∃ l ∈ L, x = resetLink l := by
  induction L generalizing seen with
  | nil => simp [dedupReset] at h
  | cons l ls ih =>
    rw [dedupReset] at h
    by_cases hm : l.content.target ∈ seen
    · rw [if_pos hm] at h
      rcases ih seen h with ⟨l0, hl0, hx⟩
      exact ⟨l0, List.mem_cons_of_mem _ hl0, hx⟩
    · rw [if_neg hm] at h
      rcases List.mem_cons.mp h with h1 | h1
      · exact ⟨l, List.mem_cons_self _ _, h1⟩
      · rcases ih _ h1 with ⟨l0, hl0, hx⟩
        exact ⟨l0, List.mem_cons_of_mem _ hl0, hx⟩

theorem dedupReset_targets_sub (L : List EntryLink) (seen : List String) (t : String)
    (h : t ∈ targetsOf (dedupReset L seen)) : t ∈ targetsOf L := by
  rcases List.mem_map.mp h with ⟨x, hx, hxt⟩
  rcases dedupReset_shape L seen x hx with ⟨l, hl, hr⟩
  apply List.mem_map.mpr
  refine ⟨l, hl, ?_⟩
  rw [← hxt, hr, resetLink_target]

theorem dedupReset_first_occ (L1 L2 : List EntryLink) (l : EntryLink)
    (seen : List String)
    (hfirst : ∀ l' ∈ L1, l'.content.target ≠ l.content.target)
    (hseen : l.content.target ∉ seen) :
    resetLink l ∈ dedupReset (L1 ++ l :: L2) seen := by
  induction L1 generalizing seen with
  | nil =>
    rw [List.nil_append, dedupReset, if_neg hseen]
    exact List.mem_cons_self _ _
  | cons l1 ls ih =>
    rw [List.cons_append, dedupReset]
    have hfirst' : ∀ l' ∈ ls, l'.content.target ≠ l.content.target :=
      fun l' hl' => hfirst l' (List.mem_cons_of_mem _ hl')
    by_cases hm : l1.content.target ∈ seen
    · rw [if_pos hm]
      exact ih seen hfirst' hseen
    · rw [if_neg hm]
      apply List.mem_cons_of_mem
      apply ih _ hfirst'
      intro hmem
      rcases List.mem_append.mp hmem with h1 | h1
      · exact hseen h1
      · exact hfirst l1 (List.mem_cons_self _ _) (List.mem_singleton.mp h1).symm

theorem newTargets_not_mem (st : List (EntryFile × String)) (a : List String)
    (t : String) (h : t ∈ newTargets st a) : t ∉ a := by
  induction st generalizing a with
  | nil => simp [newTargets] at h
  | cons p rest ih =>
    cases p with
    | mk e t0 =>
      rw [newTargets] at h
      by_cases hm : t0 ∈ a
      · rw [if_pos hm] at h
        exact ih a h
      · rw [if_neg hm] at h
        rcases List.mem_cons.mp h with h1 | h1
        · exact h1 ▸ hm
        · intro ha
          exact ih (a ++ [t0]) h1 (List.mem_append_left _ ha)

theorem newTargets_nodup (st : List (EntryFile × String)) (a : List String) :
    (newTargets st a).Nodup := by
  induction st generalizing a with
  | nil => simp [newTargets]
  | cons p rest ih =>
    cases p with
    | mk e t0 =>
      rw [newTargets]
      by_cases hm : t0 ∈ a
      · rw [if_pos hm]
        exact ih a
      · rw [if_neg hm]
        refine List.Nodup.cons ?_ (ih (a ++ [t0]))
        intro hmem
        exact newTargets_not_mem rest _ _ hmem
          (List.mem_append_right _ (List.mem_singleton.mpr rfl))

theorem newTargets_mem_of (st : List (EntryFile × String)) (a : List String)
    (t : String) (e : EntryFile) (hst : (e, t) ∈ st) (ha : t ∉ a) :
    t ∈ newTargets st a := by
  induction st generalizing a with
  | nil => cases hst
  | cons p rest ih =>
    cases p with
    | mk e0 t0 =>
      rw [newTargets]
      by_cases ht : t = t0
      · subst ht
        rw [if_neg ha]
        exact List.mem_cons_self _ _
      · have hrest : (e, t) ∈ rest := by
          rcases List.mem_cons.mp hst with h1 | h1
          · cases h1
            exact absurd rfl ht
          · exact h1
        by_cases hm : t0 ∈ a
        · rw [if_pos hm]
          exact ih _ hrest ha
        · rw [if_neg hm]
          apply List.mem_cons_of_mem
          apply ih _ hrest
          intro hmem
          rcases List.mem_append.mp hmem with h1 | h1
          · exact ha h1
          · exact ht (List.mem_singleton.mp h1)

theorem mem_newTargets_exists (st : List (EntryFile × String)) (a : List String)
    (t : String) (h : t ∈ newTargets st a) : ∃ e, (e, t) ∈ st := by
  induction st generalizing a with
  | nil => simp [newTargets] at h
  | cons p rest ih =>
    cases p with
    | mk e0 t0 =>
      rw [newTargets] at h
      by_cases hm : t0 ∈ a
      · rw [if_pos hm] at h
        rcases ih _ h with ⟨e, he⟩
        exact ⟨e, List.mem_cons_of_mem _ he⟩
      · rw [if_neg hm] at h
        rcases List.mem_cons.mp h with h1 | h1
        · exact ⟨e0, h1 ▸ List.mem_cons_self _ _⟩
        · rcases ih _ h1 with ⟨e, he⟩
          exact ⟨e, List.mem_cons_of_mem _ he⟩

theorem mem_touches_iff (st : List (EntryFile × String)) (t : String) (e : EntryFile) :
    e ∈ touches st t ↔ (e, t) ∈ st := by
  unfold touches
  rw [List.mem_map]
  constructor
  · rintro ⟨p, hp, hpe⟩
    rcases List.mem_filter.mp hp with ⟨hpst, hpt⟩
    have : p.2 = t := by simpa using hpt
    cases p with
    | mk p1 p2 =>
      cases hpe
      cases this
      exact hpst
  · intro h
    refine ⟨(e, t), List.mem_filter.mpr ⟨h, by simp⟩, rfl⟩

theorem touches_nonempty (st : List (EntryFile × String)) (t : String) (e : EntryFile)
    (h : (e, t) ∈ st) : touches st t ≠ [] :=
  fun hn => by
    have := (mem_touches_iff st t e).mpr h
    rw [hn] at this
    cases this

theorem mem_stream (F : List EntryFile) (e : EntryFile) (t : String)
    (h : (e, t) ∈ stream F) : e ∈ F ∧ e.isNote = true ∧ t ∈ e.noteLinks := by
  induction F with
  | nil => cases h
  | cons e0 es ih =>
    rw [stream] at h
    rcases List.mem_append.mp h with h1 | h1
    · cases hn : e0.isNote with
      | true =>
        rw [hn, if_pos rfl] at h1
        rcases List.mem_map.mp h1 with ⟨t0, ht0, hpe⟩
        cases hpe
        exact ⟨List.mem_cons_self _ _, hn, ht0⟩
      | false =>
        rw [hn] at h1
        simp at h1
    · rcases ih h1 with ⟨h2, h3, h4⟩
      exact ⟨List.mem_cons_of_mem _ h2, h3, h4⟩

theorem findLink_of_mem_nodup (ls : List EntryLink) (l : EntryLink)
    (hnd : (targetsOf ls).Nodup) (hmem : l ∈ ls) :
    findLink ls l.content.target = some l := by
  induction ls with
  | nil => cases hmem
  | cons x rest ih =>
    unfold targetsOf at hnd
    rw [List.map_cons, List.nodup_cons] at hnd
    by_cases hx : x.content.target = l.content.target
    · rcases List.mem_cons.mp hmem with h1 | h1
      · rw [findLink, if_pos hx, h1]
      · exact absurd (hx ▸ List.mem_map.mpr ⟨l, h1, rfl⟩) hnd.1
    · have h1 : l ∈ rest := by
        rcases List.mem_cons.mp hmem with h2 | h2
        · exact absurd (h2 ▸ rfl) hx
        · exact h2
      rw [findLink, if_neg hx]
      exact ih hnd.2 h1

theorem filterMap_eq_map_of_some {α β : Type} (f : α → Option β) (g : α → β)
    (l : List α) (h : ∀ x ∈ l, f x = some (g x)) : l.filterMap f = l.map g := by
  induction l with
  | nil => rfl
  | cons x xs ih =>
    rw [List.filterMap_cons, h x (List.mem_cons_self _ _), List.map_cons]
    rw [ih (fun y hy => h y (List.mem_cons_of_mem _ hy))]

theorem touchLink_title (l : EntryLink) (e : EntryFile) :
    (touchLink l e).title = l.title := rfl

theorem applyTouches_title (es : List EntryFile) (l : EntryLink) :
    (applyTouches l es).title = l.title := by
  induction es generalizing l with
  | nil => rfl
  | cons e es ih =>
    show (applyTouches (touchLink l e) es).title = _
    rw [ih, touchLink_title]

theorem touchLink_ownLabels (l : EntryLink) (e : EntryFile) :
    (touchLink l e).content.ownLabels = l.content.ownLabels := rfl

theorem applyTouches_ownLabels (es : List EntryFile) (l : EntryLink) :
    (applyTouches l es).content.ownLabels = l.content.ownLabels := by
  induction es generalizing l with
  | nil => rfl
  | cons e es ih =>
    show (applyTouches (touchLink l e) es).content.ownLabels = _
    rw [ih, touchLink_ownLabels]

/-- The deduplicated, reset first-occurrence links of the first loop. -/
def dOf (L : List EntryLink) : List EntryLink := dedupReset L []

/-- The targets emitted by the first loop (standalone links, first
occurrence, in order). -/
def r1Of (L : List EntryLink) : List String :=
  ((dOf L).filter standaloneB).map (fun l => l.content.target)

/-- The targets emitted by the second loop, in first-touch order. -/
def tbOf (F : List EntryFile) (L : List EntryLink) : List String :=
  newTargets (stream F) (r1Of L)

/-- All emitted targets, in result order. -/
def outTargets (F : List EntryFile) (L : List EntryLink) : List String :=
  r1Of L ++ tbOf F L

/-- The record emitted for a target. -/
def recordOf (F : List EntryFile) (L : List EntryLink) (t : String) : Option EntryLink :=
  recFor ⟨r1Of L, dOf L⟩ (stream F) t

theorem linkOutput_def2 (F : List EntryFile) (L : List EntryLink) :
    linkOutput F L = (outTargets F L).filterMap (recordOf F L) := rfl

theorem r1Of_sub_targets (L : List EntryLink) (t : String) (h : t ∈ r1Of L) :
    t ∈ targetsOf (dOf L) := by
  rcases List.mem_map.mp h with ⟨l, hl, hlt⟩
  exact hlt ▸ List.mem_map.mpr ⟨l, List.mem_of_mem_filter hl, rfl⟩

theorem r1Of_nodup (L : List EntryLink) : (r1Of L).Nodup := by
  have hsub : (((dOf L).filter standaloneB).map (fun l => l.content.target)).Sublist
      (targetsOf (dOf L)) := List.Sublist.map _ (List.filter_sublist _)
  exact List.Nodup.sublist hsub (dedupReset_targets_nodup L [])

theorem outTargets_nodup (F : List EntryFile) (L : List EntryLink) :
    (outTargets F L).Nodup := by
  refine List.Nodup.append (r1Of_nodup L) (newTargets_nodup _ _) ?_
  intro t ht1 ht2
  exact newTargets_not_mem _ _ _ ht2 ht1

/-- A default link record (never observed; used only to strip the option). -/
def defaultLink : EntryLink := ⟨"", 0, [], ⟨"", [], none, [], [], []⟩, ""⟩

/-- The record emitted for a target, option stripped. -/
def recordD (F : List EntryFile) (L : List EntryLink) (t : String) : EntryLink :=
  (recordOf F L t).getD defaultLink

theorem recordOf_some (F : List EntryFile) (L : List EntryLink) (t : String)
    (ht : t ∈ outTargets F L) :
    recordOf F L t = some (recordD F L t) ∧ (recordD F L t).content.target = t := by
  rcases List.mem_append.mp ht with h1 | h1
  · have hmem : t ∈ targetsOf (dOf L) := r1Of_sub_targets L t h1
    rcases Option.isSome_iff_exists.mp (findLink_isSome_of_mem_targets _ _ hmem)
      with ⟨r0, hr0⟩
    have hrec : recordOf F L t = some (applyTouches r0 (touches (stream F) t)) := by
      unfold recordOf recFor
      rw [hr0]
    refine ⟨?_, ?_⟩
    · unfold recordD
      rw [hrec]
      rfl
    · unfold recordD
      rw [hrec]
      show (applyTouches r0 (touches (stream F) t)).content.target = t
      rw [applyTouches_target]
      exact findLink_some_target _ _ _ hr0
  · cases hf : findLink (dOf L) t with
    | some r0 =>
      have hrec : recordOf F L t = some (applyTouches r0 (touches (stream F) t)) := by
        unfold recordOf recFor
        rw [hf]
      refine ⟨?_, ?_⟩
      · unfold recordD
        rw [hrec]
        rfl
      · unfold recordD
        rw [hrec]
        show (applyTouches r0 (touches (stream F) t)).content.target = t
        rw [applyTouches_target]
        exact findLink_some_target _ _ _ hf
    | none =>
      rcases mem_newTargets_exists _ _ _ h1 with ⟨e, he⟩
      cases htc : touches (stream F) t with
      | nil => exact absurd htc (touches_nonempty _ _ _ he)
      | cons e0 es =>
        have hrec : recordOf F L t = some (applyTouches (synthLink e0 t) es) := by
          unfold recordOf recFor
          rw [hf, htc]
        refine ⟨?_, ?_⟩
        · unfold recordD
          rw [hrec]
          rfl
        · unfold recordD
          rw [hrec]
          show (applyTouches (synthLink e0 t) es).content.target = t
          rw [applyTouches_target]
          rfl

theorem linkOutput_eq_map (F : List EntryFile) (L : List EntryLink) :
    linkOutput F L = (outTargets F L).map (recordD F L) := by
  rw [linkOutput_def2]
  exact filterMap_eq_map_of_some _ _ _ (fun t ht => (recordOf_some F L t ht).1)

theorem resetLink_title (l : EntryLink) : (resetLink l).title = l.title := rfl

theorem resetLink_ownLabels (l : EntryLink) :
    (resetLink l).content.ownLabels = l.content.ownLabels := rfl

/-- C6 (amended): every existing standalone Link whose target does not
duplicate the target of an earlier existing link appears in the
reconciliation result — title, standalone owner and own labels preserved —
even with zero references; and any result entry carrying the target of an
existing non-standalone link that no Note references is standalone-owned, so
a non-standalone unreferenced link never survives reconciliation. (The
unamended first half fails when a duplicate target hides the standalone
link.) -/
theorem c6_standalone_persistence (F : List EntryFile) (L1 L2 : List EntryLink)
    (l : EntryLink) :
    (l.content.standaloneRepo.isSome →
      (∀ x ∈ L1, x.content.target ≠ l.content.target) →
      ∃ r ∈ recomputeLinkEntries F (L1 ++ l :: L2),
        r.content.target = l.content.target
        ∧ r.title = l.title
        ∧ r.content.standaloneRepo = l.content.standaloneRepo
        ∧ r.content.ownLabels = l.content.ownLabels)
    ∧ (∀ lx ∈ L1 ++ l :: L2, lx.content.standaloneRepo = none →
        (∀ e ∈ F, e.isNote = true → lx.content.target ∉ e.noteLinks) →
        ∀ r ∈ recomputeLinkEntries F (L1 ++ l :: L2),
          r.content.target = lx.content.target → r.content.standaloneRepo.isSome) := by
  constructor
  · intro hst hfirst
    rw [recomputeLinkEntries_eq, linkOutput_eq_map]
    have hd : resetLink l ∈ dOf (L1 ++ l :: L2) :=
      dedupReset_first_occ L1 L2 l [] hfirst (by simp)
    have hfil : resetLink l ∈ (dOf (L1 ++ l :: L2)).filter standaloneB := by
      refine List.mem_filter.mpr ⟨hd, ?_⟩
      unfold standaloneB
      rw [resetLink_standalone]
      exact hst
    have ht : l.content.target ∈ r1Of (L1 ++ l :: L2) :=
      List.mem_map.mpr ⟨resetLink l, hfil, resetLink_target l⟩
    have htout : l.content.target ∈ outTargets F (L1 ++ l :: L2) :=
      List.mem_append_left _ ht
    have hfind : findLink (dOf (L1 ++ l :: L2)) l.content.target = some (resetLink l) := by
      have := findLink_of_mem_nodup (dOf (L1 ++ l :: L2)) (resetLink l)
        (dedupReset_targets_nodup _ _) hd
      rw [resetLink_target] at this
      exact this
    have hrec : recordOf F (L1 ++ l :: L2) l.content.target
        = some (applyTouches (resetLink l) (touches (stream F) l.content.target)) := by
      unfold recordOf recFor
      rw [hfind]
    refine ⟨recordD F (L1 ++ l :: L2) l.content.target,
      List.mem_map.mpr ⟨l.content.target, htout, rfl⟩, ?_, ?_, ?_, ?_⟩
    · exact (recordOf_some F (L1 ++ l :: L2) l.content.target htout).2
    · unfold recordD
      rw [hrec]
      show (applyTouches (resetLink l) _).title = l.title
      rw [applyTouches_title, resetLink_title]
    · unfold recordD
      rw [hrec]
      show (applyTouches (resetLink l) _).content.standaloneRepo = _
      rw [applyTouches_standalone, resetLink_standalone]
    · unfold recordD
      rw [hrec]
      show (applyTouches (resetLink l) _).content.ownLabels = _
      rw [applyTouches_ownLabels, resetLink_ownLabels]
  · intro lx _ hnone hunref r hr hrt
    rw [recomputeLinkEntries_eq, linkOutput_eq_map] at hr
    rcases List.mem_map.mp hr with ⟨t, htout, hrd⟩
    have htt : t = lx.content.target := by
      rw [← (recordOf_some F (L1 ++ l :: L2) t htout).2, hrd, hrt]
    rcases List.mem_append.mp htout with h1 | h1
    · rcases List.mem_map.mp h1 with ⟨x, hxf, hxt⟩
      have hx : x ∈ dOf (L1 ++ l :: L2) := List.mem_of_mem_filter hxf
      have hxs : standaloneB x = true := List.of_mem_filter hxf
      have hfind : findLink (dOf (L1 ++ l :: L2)) t = some x := by
        have := findLink_of_mem_nodup (dOf (L1 ++ l :: L2)) x
          (dedupReset_targets_nodup _ _) hx
        rw [hxt] at this
        exact this
      have hrec : recordOf F (L1 ++ l :: L2) t
          = some (applyTouches x (touches (stream F) t)) := by
        unfold recordOf recFor
        rw [hfind]
      rw [← hrd]
      unfold recordD
      rw [hrec]
      show (applyTouches x _).content.standaloneRepo.isSome
      rw [applyTouches_standalone]
      exact hxs
    · rcases mem_newTargets_exists _ _ _ h1 with ⟨e, he⟩
      rcases mem_stream F e t he with ⟨heF, heN, heT⟩
      exact absurd (htt ▸ heT) (hunref e heF heN)

/-- Witness for C6 at a single standalone link with no referencing notes. -/
theorem c6_witness :
    ∃ r ∈ recomputeLinkEntries []
        [⟨"T", 0, [], ⟨"t", [], some ⟨"u", "r", "tok", "main"⟩, [], [], ["lab"]⟩, "k"⟩],
      r.content.target = "t" ∧ r.title = "T"
      ∧ r.content.standaloneRepo = some ⟨"u", "r", "tok", "main"⟩
      ∧ r.content.ownLabels = ["lab"] :=
  (c6_standalone_persistence [] [] []
    ⟨"T", 0, [], ⟨"t", [], some ⟨"u", "r", "tok", "main"⟩, [], [], ["lab"]⟩, "k"⟩).1
    rfl (fun x hx => absurd hx (List.not_mem_nil x))

/-- C6 counterexample: a standalone link whose target duplicates an earlier
non-standalone link is discarded, so it does not appear in the result even
though it is marked standalone. -/
theorem c6_counterexample :
    recomputeLinkEntries []
      [⟨"t", 0, [], ⟨"t", [], none, [], [], []⟩, "__link_t"⟩,
       ⟨"t", 0, [], ⟨"t", [], some ⟨"u", "r", "tok", "main"⟩, [], [], []⟩, "__link_t"⟩]
      = []
    ∧ (⟨"t", 0, [], ⟨"t", [], some ⟨"u", "r", "tok", "main"⟩, [], [], []⟩,
        "__link_t"⟩ : EntryLink).content.standaloneRepo.isSome = true :=
  ⟨rfl, rfl⟩

theorem touches_append (a b : List (EntryFile × String)) (t : String) :
    touches (a ++ b) t = touches a t ++ touches b t := by
  simp [touches, List.filter_append]

theorem touches_map_self (ts : List String) (e : EntryFile) (t : String) :
    touches (ts.map (fun x => (e, x))) t = List.replicate (ts.count t) e := by
  induction ts with
  | nil => rfl
  | cons x xs ih =>
    rw [List.map_cons, touches_cons, List.count_cons]
    by_cases hx : x = t
    · subst hx
      simp [ih, List.replicate_succ]
    · have hbx : ¬ (x == t) = true := by simpa using hx
      simp [hx, ih, hbx]

theorem countP_target_map (ts : List String) (g : String → EntryLink) (t : String)
    (hg : ∀ x ∈ ts, (g x).content.target = x) :
    ((ts.map g).countP (fun r => r.content.target == t)) = ts.count t := by
  induction ts with
  | nil => rfl
  | cons x xs ih =>
    rw [List.map_cons, List.countP_cons, List.count_cons]
    rw [ih (fun y hy => hg y (List.mem_cons_of_mem _ hy))]
    rw [hg x (List.mem_cons_self _ _)]

theorem perm_ordInsert {α : Type} (le : α → α → Bool) (a : α) (l : List α) :
    (ordInsert le a l).Perm (a :: l) := by
  induction l with
  | nil => exact List.Perm.refl _
  | cons b t ih =>
    rw [ordInsert]
    by_cases h : le a b
    · rw [if_pos h]
    · rw [if_neg h]
      exact (List.Perm.cons b ih).trans (List.Perm.swap a b t)

theorem perm_insSort {α : Type} (le : α → α → Bool) (l : List α) :
    (insSort le l).Perm l := by
  induction l with
  | nil => exact List.Perm.refl _
  | cons a t ih =>
    rw [insSort]
    exact (perm_ordInsert le a (insSort le t)).trans (List.Perm.cons a ih)

theorem mem_normalizeLabels (ls : List String) (x : String) :
    x ∈ normalizeLabels ls ↔ x ∈ ls.map lowerStr := by
  unfold normalizeLabels
  rw [(perm_insSort labelLe _).mem_iff, List.mem_dedup]

theorem nodup_normalizeLabels (ls : List String) : (normalizeLabels ls).Nodup := by
  unfold normalizeLabels
  exact ((perm_insSort labelLe _).nodup_iff).mpr (List.nodup_dedup _)

/-- C7 (amended): two Note entries in different locations whose outgoing
targets both contain the target exactly once, with the target absent from the
existing links, produce exactly one Link entry for it: back references
`[n1, n2]`, each distinct location and repo once in insertion order, and the
label set equal to the merged (deduplicated, lower-cased, sorted) union of
both notes' labels. (The unamended claim fails when one note's extracted
target list contains the target more than once.) -/
theorem c7_reference_aggregation (L : List EntryLink) (n1 n2 : EntryFile) (t : String)
    (hn1 : n1.isNote = true) (hn2 : n2.isNote = true)
    (hloc : n1.location ≠ n2.location)
    (hc1 : n1.noteLinks.count t = 1) (hc2 : n2.noteLinks.count t = 1)
    (hex : ∀ lx ∈ L, lx.content.target ≠ t) :
    ((recomputeLinkEntries [n1, n2] L).countP (fun r => r.content.target == t)) = 1
    ∧ ∃ r ∈ recomputeLinkEntries [n1, n2] L,
        r.content.target = t
        ∧ r.content.referencedBy = [n1, n2]
        ∧ r.content.refLocations = [n1.location, n2.location]
        ∧ r.content.refRepos = mergeRepos [n1.repo] n2.repo
        ∧ (getRepoId n1.repo = getRepoId n2.repo → r.content.refRepos = [n1.repo])
        ∧ (getRepoId n1.repo ≠ getRepoId n2.repo →
            r.content.refRepos = [n1.repo, n2.repo])
        ∧ r.labels = mergeLabels n1.labels n2.labels
        ∧ r.labels.Nodup
        ∧ (∀ x, x ∈ r.labels ↔ x ∈ (n1.labels ++ n2.labels).map lowerStr) := by
  have hto : touches (stream [n1, n2]) t = [n1, n2] := by
    show touches ((if n1.isNote then n1.noteLinks.map (fun x => (n1, x)) else [])
        ++ ((if n2.isNote then n2.noteLinks.map (fun x => (n2, x)) else [])
        ++ stream []) ) t = [n1, n2]
    rw [hn1, hn2]
    simp only [if_pos rfl, eq_self_iff_true, if_true]
    rw [touches_append, touches_append, touches_map_self, touches_map_self, hc1, hc2]
    rfl
  have hnotmem : t ∉ targetsOf (dOf L) := by
    intro hmem
    have h2 := dedupReset_targets_sub L [] t hmem
    rcases List.mem_map.mp h2 with ⟨lx, hlx, hlxt⟩
    exact hex lx hlx hlxt
  have hfd : findLink (dOf L) t = none := (findLink_eq_none_iff _ _).mpr hnotmem
  have hnr1 : t ∉ r1Of L := fun hmem => hnotmem (r1Of_sub_targets L t hmem)
  have htmem : t ∈ n1.noteLinks := by
    have : 0 < n1.noteLinks.count t := by rw [hc1]; exact Nat.zero_lt_one
    exact List.count_pos_iff.mp this
  have hstream : (n1, t) ∈ stream [n1, n2] := by
    show (n1, t) ∈ (if n1.isNote then n1.noteLinks.map (fun x => (n1, x)) else []) ++ _
    apply List.mem_append_left
    rw [hn1]
    simp only [if_pos rfl, eq_self_iff_true, if_true]
    exact List.mem_map.mpr ⟨t, htmem, rfl⟩
  have htb : t ∈ tbOf [n1, n2] L := newTargets_mem_of _ _ _ _ hstream hnr1
  have htout : t ∈ outTargets [n1, n2] L := List.mem_append_right _ htb
  have hrec : recordOf [n1, n2] L t = some (touchLink (synthLink n1 t) n2) := by
    unfold recordOf recFor
    rw [hfd, hto]
    rfl
  have hrd : recordD [n1, n2] L t = touchLink (synthLink n1 t) n2 := by
    unfold recordD
    rw [hrec]
    rfl
  constructor
  · rw [recomputeLinkEntries_eq, linkOutput_eq_map]
    rw [countP_target_map _ _ t (fun x hx => (recordOf_some [n1, n2] L x hx).2)]
    have hle : (outTargets [n1, n2] L).count t ≤ 1 :=
      List.nodup_iff_count_le_one.mp (outTargets_nodup [n1, n2] L) t
    have hpos : 0 < (outTargets [n1, n2] L).count t := List.count_pos_iff.mpr htout
    omega
  · rw [recomputeLinkEntries_eq, linkOutput_eq_map]
    refine ⟨recordD [n1, n2] L t, List.mem_map.mpr ⟨t, htout, rfl⟩, ?_⟩
    rw [hrd]
    have hlocb : ([n1.location].any (fun l => l == n2.location)) = false := by
      simp [hloc]
    refine ⟨rfl, rfl, ?_, rfl, ?_, ?_, rfl, ?_, ?_⟩
    · show mergeLocations [n1.location] n2.location = _
      unfold mergeLocations
      rw [hlocb]
      rfl
    · intro hid
      show mergeRepos [n1.repo] n2.repo = _
      unfold mergeRepos
      have : ([n1.repo].any (fun r => getRepoId r == getRepoId n2.repo)) = true := by
        simp [hid]
      rw [this]
      rfl
    · intro hid
      show mergeRepos [n1.repo] n2.repo = _
      unfold mergeRepos
      have : ([n1.repo].any (fun r => getRepoId r == getRepoId n2.repo)) = false := by
        simp [hid]
      rw [this]
      rfl
    · exact nodup_normalizeLabels _
    · intro x
      show x ∈ mergeLabels n1.labels n2.labels ↔ _
      unfold mergeLabels
      rw [mem_normalizeLabels]

/-- Witness for C7: two concrete notes in different locations, both linking
once to the fresh target `t`. -/
theorem c7_witness :
    ((recomputeLinkEntries
        [⟨"N1", 0, ["A"], ContentFile.note
            ⟨⟨"u", "r", "tok", "main"⟩, "loc1", "md", 0, 0, none, "", "", ["t"]⟩, "k1"⟩,
         ⟨"N2", 0, ["b"], ContentFile.note
            ⟨⟨"u", "r", "tok", "main"⟩, "loc2", "md", 0, 0, none, "", "", ["t"]⟩, "k2"⟩]
        []).countP (fun r => r.content.target == "t")) = 1
    ∧ ∃ r ∈ recomputeLinkEntries
        [⟨"N1", 0, ["A"], ContentFile.note
            ⟨⟨"u", "r", "tok", "main"⟩, "loc1", "md", 0, 0, none, "", "", ["t"]⟩, "k1"⟩,
         ⟨"N2", 0, ["b"], ContentFile.note
            ⟨⟨"u", "r", "tok", "main"⟩, "loc2", "md", 0, 0, none, "", "", ["t"]⟩, "k2"⟩]
        [],
        r.content.target = "t"
        ∧ r.content.referencedBy
            = [⟨"N1", 0, ["A"], ContentFile.note
                  ⟨⟨"u", "r", "tok", "main"⟩, "loc1", "md", 0, 0, none, "", "", ["t"]⟩,
                "k1"⟩,
               ⟨"N2", 0, ["b"], ContentFile.note
                  ⟨⟨"u", "r", "tok", "main"⟩, "loc2", "md", 0, 0, none, "", "", ["t"]⟩,
                "k2"⟩]
        ∧ r.content.refLocations = ["loc1", "loc2"]
        ∧ r.labels = mergeLabels ["A"] ["b"] := by
  have h := c7_reference_aggregation []
    ⟨"N1", 0, ["A"], ContentFile.note
        ⟨⟨"u", "r", "tok", "main"⟩, "loc1", "md", 0, 0, none, "", "", ["t"]⟩, "k1"⟩
    ⟨"N2", 0, ["b"], ContentFile.note
        ⟨⟨"u", "r", "tok", "main"⟩, "loc2", "md", 0, 0, none, "", "", ["t"]⟩, "k2"⟩
    "t" rfl rfl (by decide) (by decide) (by decide)
    (fun lx hlx => absurd hlx (List.not_mem_nil lx))
  refine ⟨h.1, ?_⟩
  rcases h.2 with ⟨r, hr, h1, h2, h3, _, _, _, h7, _, _⟩
  exact ⟨r, hr, h1, h2, h3, h7⟩

/-- C7 counterexample: when one note's extracted target list contains the
same target twice, the single produced link has a back-reference list of
length 3, not 2, although both notes "contain" the target. -/
theorem c7_counterexample :
    (recomputeLinkEntries
        [⟨"N1", 0, [], ContentFile.note
            ⟨⟨"u", "r", "tok", "main"⟩, "loc1", "md", 0, 0, none, "", "", ["t", "t"]⟩,
          "k1"⟩,
         ⟨"N2", 0, [], ContentFile.note
            ⟨⟨"u", "r", "tok", "main"⟩, "loc2", "md", 0, 0, none, "", "", ["t"]⟩, "k2"⟩]
        []).map (fun r => (r.content.target, r.content.referencedBy.length))
      = [("t", 3)] := by
  rfl

theorem charListLe_total (a b : List Char) :
    (charListLe a b || charListLe b a) = true := by
  induction a generalizing b with
  | nil => simp [charListLe]
  | cons x xs ih =>
    cases b with
    | nil => simp [charListLe]
    | cons y ys =>
      by_cases hxy : x < y
      · have hyx : ¬ (y < x) := fun hh => absurd hxy (not_lt.mpr (le_of_lt hh))
        simp [charListLe, hxy, hyx]
      · by_cases hyx : y < x
        · simp [charListLe, hxy, hyx]
        · simp only [charListLe, if_neg hxy, if_neg hyx]
          exact ih ys

theorem charListLe_trans (a b c : List Char) (h1 : charListLe a b = true)
    (h2 : charListLe b c = true) : charListLe a c = true := by
  induction a generalizing b c with
  | nil => simp [charListLe]
  | cons x xs ih =>
    cases b with
    | nil => simp [charListLe] at h1
    | cons y ys =>
      cases c with
      | nil => simp [charListLe] at h2
      | cons z zs =>
        by_cases hxy : x < y
        · by_cases hyz : y < z
          · have hxz : x < z := lt_trans hxy hyz
            simp [charListLe, hxz]
          · by_cases hzy : z < y
            · rw [charListLe, if_neg hyz, if_pos hzy] at h2
              cases h2
            · have hyz' : y = z := le_antisymm (not_lt.mp hzy) (not_lt.mp hyz)
              subst hyz'
              simp [charListLe, hxy]
        · by_cases hyx : y < x
          · rw [charListLe, if_neg hxy, if_pos hyx] at h1
            cases h1
          · have hxy' : x = y := le_antisymm (not_lt.mp hyx) (not_lt.mp hxy)
            subst hxy'
            rw [charListLe, if_neg (lt_irrefl x), if_neg (lt_irrefl x)] at h1
            by_cases hxz : x < z
            · simp [charListLe, hxz]
            · by_cases hzx : z < x
              · rw [charListLe, if_neg hxz, if_pos hzx] at h2
                cases h2
              · rw [charListLe, if_neg hxz, if_neg hzx] at h2 ⊢
                exact ih ys zs h1 h2

theorem entryLe_total (a b : Entry) : (entryLe a b || entryLe b a) = true := by
  unfold entryLe
  by_cases hr : a.content.kindRank = b.content.kindRank
  · rw [if_pos hr, if_pos hr.symm]
    exact charListLe_total _ _
  · rw [if_neg hr, if_neg (fun hh => hr hh.symm)]
    rcases Nat.lt_or_ge a.content.kindRank b.content.kindRank with h | h
    · simp [h]
    · have : b.content.kindRank < a.content.kindRank :=
        lt_of_le_of_ne h (fun hh => hr hh.symm)
      simp [this]

theorem entryLe_trans (a b c : Entry) (h1 : entryLe a b = true)
    (h2 : entryLe b c = true) : entryLe a c = true := by
  unfold entryLe at *
  by_cases hab : a.content.kindRank = b.content.kindRank
  · by_cases hbc : b.content.kindRank = c.content.kindRank
    · rw [if_pos hab] at h1
      rw [if_pos hbc] at h2
      rw [if_pos (hab.trans hbc)]
      exact charListLe_trans _ _ _ h1 h2
    · rw [if_neg hbc] at h2
      have hlt : b.content.kindRank < c.content.kindRank := of_decide_eq_true h2
      have hac : a.content.kindRank ≠ c.content.kindRank := fun hh =>
        hbc (hab ▸ hh)
      rw [if_neg hac]
      exact decide_eq_true (hab ▸ hlt)
  · rw [if_neg hab] at h1
    have hlt1 : a.content.kindRank < b.content.kindRank := of_decide_eq_true h1
    by_cases hbc : b.content.kindRank = c.content.kindRank
    · have hac : a.content.kindRank ≠ c.content.kindRank := fun hh =>
        hab (hh.trans hbc.symm)
      rw [if_neg hac]
      exact decide_eq_true (hbc ▸ hlt1)
    · rw [if_neg hbc] at h2
      have hlt2 : b.content.kindRank < c.content.kindRank := of_decide_eq_true h2
      have hlt : a.content.kindRank < c.content.kindRank := lt_trans hlt1 hlt2
      rw [if_neg (Nat.ne_of_lt hlt)]
      exact decide_eq_true hlt

theorem mem_ordInsert {α : Type} (le : α → α → Bool) (a x : α) (l : List α) :
    x ∈ ordInsert le a l ↔ x = a ∨ x ∈ l := by
  rw [(perm_ordInsert le a l).mem_iff, List.mem_cons]

theorem sorted_ordInsert {α : Type} (le : α → α → Bool)
    (htot : ∀ a b, (le a b || le b a) = true)
    (htrans : ∀ a b c, le a b = true → le b c = true → le a c = true)
    (a : α) (l : List α) (hl : l.Pairwise (fun x y => le x y = true)) :
    (ordInsert le a l).Pairwise (fun x y => le x y = true) := by
  induction l with
  | nil => simp [ordInsert]
  | cons b t ih =>
    rw [List.pairwise_cons] at hl
    rw [ordInsert]
    by_cases h : le a b
    · rw [if_pos h]
      rw [List.pairwise_cons]
      constructor
      · intro y hy
        rcases List.mem_cons.mp hy with h1 | h1
        · exact h1 ▸ h
        · exact htrans a b y h (hl.1 y h1)
      · rw [List.pairwise_cons]
        exact hl
    · rw [if_neg h]
      have hba : le b a = true := by
        have := htot a b
        rw [Bool.or_eq_true] at this
        rcases this with h1 | h1
        · exact absurd h1 h
        · exact h1
      rw [List.pairwise_cons]
      constructor
      · intro y hy
        rcases (mem_ordInsert le a y t).mp hy with h1 | h1
        · exact h1 ▸ hba
        · exact hl.1 y h1
      · exact ih hl.2

theorem sorted_insSort {α : Type} (le : α → α → Bool)
    (htot : ∀ a b, (le a b || le b a) = true)
    (htrans : ∀ a b c, le a b = true → le b c = true → le a c = true)
    (l : List α) : (insSort le l).Pairwise (fun x y => le x y = true) := by
  induction l with
  | nil => simp [insSort]
  | cons a t ih =>
    rw [insSort]
    exact sorted_ordInsert le htot htrans a _ ih

theorem sublist_ordInsert_self {α : Type} (le : α → α → Bool) (a : α) (l : List α) :
    l.Sublist (ordInsert le a l) := by
  induction l with
  | nil => simp [ordInsert]
  | cons b t ih =>
    rw [ordInsert]
    by_cases h : le a b
    · rw [if_pos h]
      exact List.Sublist.cons a (List.Sublist.refl _)
    · rw [if_neg h]
      exact List.Sublist.cons₂ b ih

theorem cons_sublist_ordInsert {α : Type} (le : α → α → Bool) (x : α)
    (c : List α) (t : List α) (hc : c.Sublist t)
    (hall : ∀ z ∈ c, le x z = true) : (x :: c).Sublist (ordInsert le x t) := by
  induction t generalizing c with
  | nil =>
    rw [List.sublist_nil.mp hc]
    simp [ordInsert]
  | cons y t' ih =>
    rw [ordInsert]
    by_cases h : le x y
    · rw [if_pos h]
      exact List.Sublist.cons₂ x hc
    · rw [if_neg h]
      cases hc with
      | cons _ h1 =>
        exact List.Sublist.cons y (ih _ h1 hall)
      | cons₂ _ h1 =>
        exact absurd (hall y (List.mem_cons_self _ _)) h

theorem sublist_insSort {α : Type} (le : α → α → Bool) (c l : List α)
    (hc : c.Pairwise (fun x y => le x y = true)) (hs : c.Sublist l) :
    c.Sublist (insSort le l) := by
  induction l generalizing c with
  | nil =>
    rw [List.sublist_nil.mp hs]
    exact List.Sublist.refl _
  | cons x l' ih =>
    rw [insSort]
    cases hs with
    | cons _ h1 =>
      exact (ih c hc h1).trans (sublist_ordInsert_self le x _)
    | cons₂ _ h1 =>
      rename_i c'
      rw [List.pairwise_cons] at hc
      exact cons_sublist_ordInsert le x c' _ (ih c' hc.2 h1) hc.1

/-- An entry with its ephemeral index cleared. -/
def stripIdx (e : Entry) : Entry := { e with idx := 0 }

theorem assignIdxFrom_map_strip (k : Nat) (l : List Entry) :
    (assignIdxFrom k l).map stripIdx = l.map stripIdx := by
  induction l generalizing k with
  | nil => rfl
  | cons e es ih =>
    rw [assignIdxFrom, List.map_cons, List.map_cons, ih]
    rfl

theorem assignIdxFrom_length (k : Nat) (l : List Entry) :
    (assignIdxFrom k l).length = l.length := by
  induction l generalizing k with
  | nil => rfl
  | cons e es ih => simp [assignIdxFrom, ih]

theorem assignIdxFrom_get (k : Nat) (l : List Entry) (i : Nat)
    (h : i < (assignIdxFrom k l).length) :
    ((assignIdxFrom k l).get ⟨i, h⟩).idx = k + i := by
  induction l generalizing k i with
  | nil => simp [assignIdxFrom] at h
  | cons e es ih =>
    cases i with
    | zero => rfl
    | succ j =>
      show ((assignIdxFrom (k + 1) es).get ⟨j, _⟩).idx = k + (j + 1)
      rw [ih]
      omega

theorem mem_assignIdxFrom (k : Nat) (l : List Entry) (y : Entry)
    (h : y ∈ assignIdxFrom k l) : ∃ z ∈ l, ∃ j, y = { z with idx := j } := by
  induction l generalizing k with
  | nil => cases h
  | cons e es ih =>
    rw [assignIdxFrom] at h
    rcases List.mem_cons.mp h with h1 | h1
    · exact ⟨e, List.mem_cons_self _ _, k, h1⟩
    · rcases ih (k + 1) h1 with ⟨z, hz, j, hj⟩
      exact ⟨z, List.mem_cons_of_mem _ hz, j, hj⟩

theorem entryLe_idx (a b : Entry) (i j : Nat) :
    entryLe { a with idx := i } { b with idx := j } = entryLe a b := rfl

theorem entryLe_idxL (a b : Entry) (i : Nat) :
    entryLe { a with idx := i } b = entryLe a b := rfl

theorem pairwise_assignIdxFrom (k : Nat) (l : List Entry)
    (h : l.Pairwise (fun a b => entryLe a b = true)) :
    (assignIdxFrom k l).Pairwise (fun a b => entryLe a b = true) := by
  induction l generalizing k with
  | nil => simp [assignIdxFrom]
  | cons e es ih =>
    rw [List.pairwise_cons] at h
    rw [assignIdxFrom, List.pairwise_cons]
    constructor
    · intro y hy
      rcases mem_assignIdxFrom (k + 1) es y hy with ⟨z, hz, j, hj⟩
      rw [hj, entryLe_idx]
      exact h.1 z hz
    · exact ih (k + 1) h.2

/-- C9: `sortAndIndexEntries` stable-sorts by content-kind rank
(Note < Document < Link), then case-insensitively by title, and assigns
`idx` by final position: the result is a permutation of the input (up to the
reassigned `idx`), pairwise ordered by the comparator, has `idx` equal to
position, and preserves every comparator-sorted subsequence of the input
(stability); in particular `[Link "z", Note "B", Document "a", Note "A"]`
sorts to `[Note "A", Note "B", Document "a", Link "z"]` with `idx` 0..3. -/
theorem c9_sort_and_index :
    (∀ es : List Entry,
      ((sortAndIndexEntries es).map stripIdx).Perm (es.map stripIdx)
      ∧ (sortAndIndexEntries es).Pairwise (fun a b => entryLe a b = true)
      ∧ (∀ i (h : i < (sortAndIndexEntries es).length),
          ((sortAndIndexEntries es).get ⟨i, h⟩).idx = i)
      ∧ (∀ c : List Entry, c.Pairwise (fun a b => entryLe a b = true) →
          c.Sublist es →
          (c.map stripIdx).Sublist ((sortAndIndexEntries es).map stripIdx)))
    ∧ sortAndIndexEntries
        [⟨"z", 0, [], EntryContent.link ⟨"z", [], none, [], [], []⟩, "kz", 0⟩,
         ⟨"B", 0, [], EntryContent.file (ContentFile.note
            ⟨⟨"u", "r", "tok", "main"⟩, "", "md", 0, 0, none, "", "", []⟩), "kb", 0⟩,
         ⟨"a", 0, [], EntryContent.file (ContentFile.doc
            ⟨⟨"u", "r", "tok", "main"⟩, "", "pdf", 0, 0, none⟩), "ka", 0⟩,
         ⟨"A", 0, [], EntryContent.file (ContentFile.note
            ⟨⟨"u", "r", "tok", "main"⟩, "", "md", 0, 0, none, "", "", []⟩), "kA", 0⟩]
      = [⟨"A", 0, [], EntryContent.file (ContentFile.note
            ⟨⟨"u", "r", "tok", "main"⟩, "", "md", 0, 0, none, "", "", []⟩), "kA", 0⟩,
         ⟨"B", 0, [], EntryContent.file (ContentFile.note
            ⟨⟨"u", "r", "tok", "main"⟩, "", "md", 0, 0, none, "", "", []⟩), "kb", 1⟩,
         ⟨"a", 0, [], EntryContent.file (ContentFile.doc
            ⟨⟨"u", "r", "tok", "main"⟩, "", "pdf", 0, 0, none⟩), "ka", 2⟩,
         ⟨"z", 0, [], EntryContent.link ⟨"z", [], none, [], [], []⟩, "kz", 3⟩] := by
  constructor
  · intro es
    refine ⟨?_, ?_, ?_, ?_⟩
    · unfold sortAndIndexEntries
      rw [assignIdxFrom_map_strip]
      exact (perm_insSort entryLe es).map stripIdx
    · unfold sortAndIndexEntries
      exact pairwise_assignIdxFrom 0 _ (sorted_insSort entryLe entryLe_total entryLe_trans es)
    · intro i h
      unfold sortAndIndexEntries at *
      rw [assignIdxFrom_get]
      omega
    · intro c hc hs
      unfold sortAndIndexEntries
      rw [assignIdxFrom_map_strip]
      exact (sublist_insSort entryLe c es hc hs).map stripIdx
  · rfl

/-- Witness for C9: position/index and stability instantiated on the
concrete example. -/
theorem c9_witness :
    (∀ i (h : i < (sortAndIndexEntries
        [⟨"z", 0, [], EntryContent.link ⟨"z", [], none, [], [], []⟩, "kz", 0⟩,
         ⟨"A", 0, [], EntryContent.file (ContentFile.note
            ⟨⟨"u", "r", "tok", "main"⟩, "", "md", 0, 0, none, "", "", []⟩),
          "kA", 0⟩]).length),
      ((sortAndIndexEntries
        [⟨"z", 0, [], EntryContent.link ⟨"z", [], none, [], [], []⟩, "kz", 0⟩,
         ⟨"A", 0, [], EntryContent.file (ContentFile.note
            ⟨⟨"u", "r", "tok", "main"⟩, "", "md", 0, 0, none, "", "", []⟩),
          "kA", 0⟩]).get ⟨i, h⟩).idx = i)
    ∧ (([⟨"A", 0, [], EntryContent.file (ContentFile.note
            ⟨⟨"u", "r", "tok", "main"⟩, "", "md", 0, 0, none, "", "", []⟩),
          "kA", 0⟩] : List Entry).map stripIdx).Sublist
        ((sortAndIndexEntries
        [⟨"z", 0, [], EntryContent.link ⟨"z", [], none, [], [], []⟩, "kz", 0⟩,
         ⟨"A", 0, [], EntryContent.file (ContentFile.note
            ⟨⟨"u", "r", "tok", "main"⟩, "", "md", 0, 0, none, "", "", []⟩),
          "kA", 0⟩]).map stripIdx) :=
  ⟨(c9_sort_and_index.1 _).2.2.1,
   (c9_sort_and_index.1 _).2.2.2 _ (by simp) (by decide)⟩

theorem standaloneB_reset (l : EntryLink) : standaloneB (resetLink l) = standaloneB l := by
  unfold standaloneB
  rw [resetLink_standalone]

theorem findLink_map_nodup (ts : List String) (g : String → EntryLink)
    (hg : ∀ x ∈ ts, (g x).content.target = x) (hnd : ts.Nodup) :
    ∀ t ∈ ts, findLink (ts.map g) t = some (g t) := by
  induction ts with
  | nil => intro t ht; cases ht
  | cons x xs ih =>
    intro t ht
    rw [List.nodup_cons] at hnd
    rw [List.map_cons, findLink]
    rcases List.mem_cons.mp ht with h1 | h1
    · subst h1
      rw [if_pos (hg t (List.mem_cons_self _ _))]
    · have hne : t ≠ x := fun hh => hnd.1 (hh ▸ h1)
      rw [hg x (List.mem_cons_self _ _)]
      rw [if_neg (fun hh => hne hh.symm)]
      exact ih (fun y hy => hg y (List.mem_cons_of_mem _ hy)) hnd.2 t h1

theorem dedupReset_of_nodup (ls : List EntryLink) (seen : List String)
    (hnd : (targetsOf ls).Nodup) (hdisj : ∀ t ∈ targetsOf ls, t ∉ seen) :
    dedupReset ls seen = ls.map resetLink := by
  induction ls generalizing seen with
  | nil => rfl
  | cons l rest ih =>
    unfold targetsOf at hnd hdisj
    rw [List.map_cons, List.nodup_cons] at hnd
    have hhead : l.content.target ∉ seen :=
      hdisj l.content.target (List.mem_map.mpr ⟨l, List.mem_cons_self _ _, rfl⟩)
    rw [dedupReset, if_neg hhead, List.map_cons]
    congr 1
    apply ih _ hnd.2
    intro t ht hts
    rcases List.mem_append.mp hts with h1 | h1
    · refine hdisj t ?_ h1
      rw [List.map_cons]
      exact List.mem_cons_of_mem _ ht
    · have : t = l.content.target := List.mem_singleton.mp h1
      exact hnd.1 (this ▸ ht)

theorem targets_linkOutput (F : List EntryFile) (L : List EntryLink) :
    targetsOf (linkOutput F L) = outTargets F L := by
  rw [linkOutput_eq_map]
  unfold targetsOf
  rw [List.map_map]
  have : ∀ t ∈ outTargets F L,
      ((fun l => l.content.target) ∘ recordD F L) t = id t := by
    intro t ht
    exact (recordOf_some F L t ht).2
  rw [List.map_congr_left this, List.map_id]

theorem recordD_standalone_of_r1 (F : List EntryFile) (L : List EntryLink) (t : String)
    (ht : t ∈ r1Of L) : standaloneB (recordD F L t) = true := by
  rcases List.mem_map.mp ht with ⟨x, hxf, hxt⟩
  have hx : x ∈ dOf L := List.mem_of_mem_filter hxf
  have hxs : standaloneB x = true := List.of_mem_filter hxf
  have hfind : findLink (dOf L) t = some x := by
    have := findLink_of_mem_nodup (dOf L) x (dedupReset_targets_nodup _ _) hx
    rw [hxt] at this
    exact this
  have hrec : recordOf F L t = some (applyTouches x (touches (stream F) t)) := by
    unfold recordOf recFor
    rw [hfind]
  unfold recordD
  rw [hrec]
  show standaloneB (applyTouches x (touches (stream F) t)) = true
  unfold standaloneB
  rw [applyTouches_standalone]
  exact hxs

theorem recordD_standalone_of_tb (F : List EntryFile) (L : List EntryLink) (t : String)
    (ht : t ∈ tbOf F L) : standaloneB (recordD F L t) = false := by
  have hnr1 : t ∉ r1Of L := newTargets_not_mem _ _ _ ht
  cases hfind : findLink (dOf L) t with
  | some r =>
    have hrs : standaloneB r = false := by
      cases hb : standaloneB r with
      | false => rfl
      | true =>
        have hrmem : r ∈ dOf L := findLink_some_mem _ _ _ hfind
        have hrt : r.content.target = t := findLink_some_target _ _ _ hfind
        have : t ∈ r1Of L :=
          List.mem_map.mpr ⟨r, List.mem_filter.mpr ⟨hrmem, hb⟩, hrt⟩
        exact absurd this hnr1
    have hrec : recordOf F L t = some (applyTouches r (touches (stream F) t)) := by
      unfold recordOf recFor
      rw [hfind]
    unfold recordD
    rw [hrec]
    show standaloneB (applyTouches r (touches (stream F) t)) = false
    unfold standaloneB
    rw [applyTouches_standalone]
    exact hrs
  | none =>
    rcases mem_newTargets_exists _ _ _ ht with ⟨e, he⟩
    cases htc : touches (stream F) t with
    | nil => exact absurd htc (touches_nonempty _ _ _ he)
    | cons e0 es =>
      have hrec : recordOf F L t = some (applyTouches (synthLink e0 t) es) := by
        unfold recordOf recFor
        rw [hfind, htc]
      unfold recordD
      rw [hrec]
      show standaloneB (applyTouches (synthLink e0 t) es) = false
      unfold standaloneB
      rw [applyTouches_standalone]
      rfl

theorem dOf_linkOutput (F : List EntryFile) (L : List EntryLink) :
    dOf (linkOutput F L)
      = (outTargets F L).map (fun t => resetLink (recordD F L t)) := by
  unfold dOf
  rw [dedupReset_of_nodup _ _
    (by rw [targets_linkOutput]; exact outTargets_nodup F L)
    (by intro t _ hts; cases hts)]
  rw [linkOutput_eq_map, List.map_map]
  rfl

theorem r1Of_linkOutput (F : List EntryFile) (L : List EntryLink) :
    r1Of (linkOutput F L) = r1Of L := by
  unfold r1Of
  rw [dOf_linkOutput]
  unfold outTargets
  rw [List.map_append, List.filter_append]
  have h1 : ((r1Of L).map (fun t => resetLink (recordD F L t))).filter standaloneB
      = (r1Of L).map (fun t => resetLink (recordD F L t)) := by
    rw [List.filter_eq_self]
    intro y hy
    rcases List.mem_map.mp hy with ⟨t, ht, hyt⟩
    rw [← hyt, standaloneB_reset]
    exact recordD_standalone_of_r1 F L t ht
  have h2 : ((tbOf F L).map (fun t => resetLink (recordD F L t))).filter standaloneB
      = [] := by
    rw [List.filter_eq_nil_iff]
    intro y hy
    rcases List.mem_map.mp hy with ⟨t, ht, hyt⟩
    rw [← hyt, standaloneB_reset, recordD_standalone_of_tb F L t ht]
    simp
  rw [h1, h2, List.append_nil, List.map_map]
  have : ∀ t ∈ r1Of L,
      ((fun l => l.content.target) ∘ fun t => resetLink (recordD F L t)) t = id t := by
    intro t ht
    show (resetLink (recordD F L t)).content.target = t
    rw [resetLink_target]
    exact (recordOf_some F L t (List.mem_append_left _ ht)).2
  rw [List.map_congr_left this, List.map_id]
  rfl

theorem touch_reset_synth (e : EntryFile) (t : String)
    (he : normalizeLabels e.labels = e.labels) :
    touchLink (resetLink (synthLink e t)) e = synthLink e t := by
  unfold touchLink resetLink synthLink mergeLabels mergeRepos mergeLocations
  simp [he]

theorem recordD_applyTouches_reset (F : List EntryFile) (L : List EntryLink)
    (hn : ∀ e ∈ F, e.isNote = true → normalizeLabels e.labels = e.labels) :
    ∀ t ∈ outTargets F L,
      applyTouches (resetLink (recordD F L t)) (touches (stream F) t)
        = recordD F L t := by
  intro t ht
  cases hfind : findLink (dOf L) t with
  | some r =>
    have hrec : recordOf F L t = some (applyTouches r (touches (stream F) t)) := by
      unfold recordOf recFor
      rw [hfind]
    have hrd : recordD F L t = applyTouches r (touches (stream F) t) := by
      unfold recordD
      rw [hrec]
      rfl
    rcases dedupReset_shape L [] r (findLink_some_mem _ _ _ hfind) with ⟨l0, _, hl0⟩
    rw [hrd, resetLink_applyTouches, hl0, resetLink_resetLink, ← hl0]
  | none =>
    have htb : t ∈ tbOf F L := by
      rcases List.mem_append.mp ht with h1 | h1
      · exact absurd (r1Of_sub_targets L t h1) ((findLink_eq_none_iff _ _).mp hfind)
      · exact h1
    rcases mem_newTargets_exists _ _ _ htb with ⟨e, he⟩
    cases htc : touches (stream F) t with
    | nil => exact absurd htc (touches_nonempty _ _ _ he)
    | cons e0 es =>
      have hrec : recordOf F L t = some (applyTouches (synthLink e0 t) es) := by
        unfold recordOf recFor
        rw [hfind, htc]
      have hrd : recordD F L t = applyTouches (synthLink e0 t) es := by
        unfold recordD
        rw [hrec]
        rfl
      have he0 : e0 ∈ touches (stream F) t := htc ▸ List.mem_cons_self _ _
      have he0st := (mem_touches_iff _ _ _).mp he0
      rcases mem_stream F e0 t he0st with ⟨heF, heN, _⟩
      rw [hrd, resetLink_applyTouches, applyTouches_cons,
        touch_reset_synth e0 t (hn e0 heF heN)]

theorem recomputeLinkEntries_idem (F : List EntryFile) (L : List EntryLink)
    (hn : ∀ e ∈ F, e.isNote = true → normalizeLabels e.labels = e.labels) :
    recomputeLinkEntries F (recomputeLinkEntries F L) = recomputeLinkEntries F L := by
  rw [recomputeLinkEntries_eq, recomputeLinkEntries_eq]
  have hg : ∀ x ∈ outTargets F L,
      ((fun u => resetLink (recordD F L u)) x).content.target = x := by
    intro x hx
    show (resetLink (recordD F L x)).content.target = x
    rw [resetLink_target]
    exact (recordOf_some F L x hx).2
  have hrecEq : ∀ t ∈ outTargets F L,
      recordD F (linkOutput F L) t = recordD F L t := by
    intro t ht
    have hfl : findLink (dOf (linkOutput F L)) t
        = some (resetLink (recordD F L t)) := by
      rw [dOf_linkOutput]
      exact findLink_map_nodup (outTargets F L) _ hg (outTargets_nodup F L) t ht
    have hro : recordOf F (linkOutput F L) t
        = some (applyTouches (resetLink (recordD F L t)) (touches (stream F) t)) := by
      unfold recordOf recFor
      rw [hfl]
    unfold recordD
    rw [hro]
    show applyTouches (resetLink (recordD F L t)) (touches (stream F) t)
        = (recordOf F L t).getD defaultLink
    rw [recordD_applyTouches_reset F L hn t ht]
    rfl
  have houtT : outTargets F (linkOutput F L) = outTargets F L := by
    unfold outTargets tbOf
    rw [r1Of_linkOutput]
  calc linkOutput F (linkOutput F L)
      = (outTargets F (linkOutput F L)).map (recordD F (linkOutput F L)) :=
        linkOutput_eq_map F (linkOutput F L)
    _ = (outTargets F L).map (recordD F (linkOutput F L)) := by rw [houtT]
    _ = (outTargets F L).map (recordD F L) := List.map_congr_left hrecEq
    _ = linkOutput F L := (linkOutput_eq_map F L).symm

/-- C8 (amended): reconciliation is idempotent provided every Note entry's
label list is already normalized (lower-cased, deduplicated, sorted):
feeding the produced link entries back into `recomputeEntries` with the same
file entries reproduces exactly the same link entries and the same
sorted/indexed entry list. (Without the normalization proviso the claim fails:
a link synthesized on the first pass copies the note's raw labels, while the
second pass rebuilds its labels through the normalizing merge.) -/
theorem c8_idempotence (F : List EntryFile) (L : List EntryLink)
    (hn : ∀ e ∈ F, e.isNote = true → normalizeLabels e.labels = e.labels) :
    recomputeEntries F (recomputeEntries F L).1 = recomputeEntries F L := by
  have h := recomputeLinkEntries_idem F L hn
  unfold recomputeEntries
  dsimp only
  rw [h]

/-- Witness for C8 at a single note with normalized labels. -/
theorem c8_witness :
    (∀ e ∈ [(⟨"N1", 0, ["a"], ContentFile.note
        ⟨⟨"u", "r", "tok", "main"⟩, "loc1", "md", 0, 0, none, "", "", ["t"]⟩, "k1"⟩
        : EntryFile)],
      e.isNote = true → normalizeLabels e.labels = e.labels)
    ∧ recomputeEntries
        [⟨"N1", 0, ["a"], ContentFile.note
            ⟨⟨"u", "r", "tok", "main"⟩, "loc1", "md", 0, 0, none, "", "", ["t"]⟩, "k1"⟩]
        (recomputeEntries
          [⟨"N1", 0, ["a"], ContentFile.note
              ⟨⟨"u", "r", "tok", "main"⟩, "loc1", "md", 0, 0, none, "", "", ["t"]⟩,
            "k1"⟩] []).1
      = recomputeEntries
        [⟨"N1", 0, ["a"], ContentFile.note
            ⟨⟨"u", "r", "tok", "main"⟩, "loc1", "md", 0, 0, none, "", "", ["t"]⟩, "k1"⟩]
        [] :=
  ⟨by decide,
   c8_idempotence
    [⟨"N1", 0, ["a"], ContentFile.note
        ⟨⟨"u", "r", "tok", "main"⟩, "loc1", "md", 0, 0, none, "", "", ["t"]⟩, "k1"⟩]
    [] (by decide)⟩

/-- C8 counterexample: with a note whose labels are not normalized (upper
case), the first pass synthesizes a link carrying the raw labels while the
second pass rebuilds them normalized, so reconciling the already-reconciled
set changes the link labels. -/
theorem c8_counterexample :
    recomputeEntries
        [⟨"N1", 0, ["A"], ContentFile.note
            ⟨⟨"u", "r", "tok", "main"⟩, "loc1", "md", 0, 0, none, "", "", ["t"]⟩, "k1"⟩]
        (recomputeEntries
          [⟨"N1", 0, ["A"], ContentFile.note
              ⟨⟨"u", "r", "tok", "main"⟩, "loc1", "md", 0, 0, none, "", "", ["t"]⟩,
            "k1"⟩] []).1
      ≠ recomputeEntries
        [⟨"N1", 0, ["A"], ContentFile.note
            ⟨⟨"u", "r", "tok", "main"⟩, "loc1", "md", 0, 0, none, "", "", ["t"]⟩, "k1"⟩]
        [] := by
  decide

/-! ## File maps and entry extraction (filemap.ts uses, entry_utils, octokit
`loadEntries`) -/

/-- The reserved folder name (`NOTEMARKS_FOLDER`). -/
def NOTEMARKS_FOLDER : String := ".notemarks"

/-- The sidecar path of a content path (`getAssociatedMetaPath`). -/
def getAssociatedMetaPath (path : String) : String :=
  NOTEMARKS_FOLDER ++ "/" ++ path ++ ".yaml"

/-- Modelled from the spec: `path_utils.isNotemarksFile` (absent from the
sources) classifies a path as reserved when it lies under the reserved
subdirectory, i.e. starts with the reserved folder name. -/
def isNotemarksFile (path : String) : Bool :=
  NOTEMARKS_FOLDER.data.isPrefixOf path.data

/-- Modelled from the spec: the well-known per-repo link-registry path
(`NOTEMARKS_LINK_DB_PATH`, absent from the sources), a fixed path inside the
reserved folder. -/
def NOTEMARKS_LINK_DB_PATH : String := ".notemarks/link_db.yaml"

/-- The substring after the last dot (JavaScript `split('.').pop()`:
the whole string when no dot is present). -/
def extOf (p : List Char) : List Char :=
  match lastIndexOf '.' p with
  | none => p
  | some i => p.drop (i + 1)

/-- File classification by extension (`getEntryKind`/`getFileKind`):
markdown extension is a note, the reserved bookmark extension is a link,
anything else a document. -/
inductive FileKind where
  | noteMarkdown
  | document
  | link
deriving DecidableEq

def getFileKind (path : String) : FileKind :=
  let extension := (extOf path.data).map Char.toLower
  if extension = ['m', 'd'] then FileKind.noteMarkdown
  else if extension = ['d', 'e', 's', 'k', 't', 'o', 'p'] then FileKind.link
  else FileKind.document

/-- The `splitLocationAndFilename` function: split at the last separator. -/
def splitLocationAndFilename (path : String) : String × String :=
  match lastIndexOf '/' path.data with
  | none => ("", path)
  | some i => (String.mk (path.data.take i), String.mk (path.data.drop (i + 1)))

/-- Modelled from the spec: `splitLocationTitleExtension` (absent from the
sources) combines `splitLocationAndFilename`, `filenameToTitle` and the final
extension of the filename. -/
def splitLocationTitleExtension (path : String) : String × String × String :=
  let lf := splitLocationAndFilename path
  let title := String.mk (filenameToTitle lf.2.data)
  let extension :=
    match lastIndexOf '.' lf.2.data with
    | none => ""
    | some i => String.mk (lf.2.data.drop (i + 1))
  (lf.1, title, extension)

/-- The per-file sidecar record. -/
structure MetaData where
  labels : List String
  timeCreated : Nat
  timeUpdated : Nat
deriving DecidableEq

/-- One tracked file of a File Map (`filemap.ts` `File`): path, optional
content hash, raw url, and at most one of fetched content or fetch error. -/
structure File where
  path : String
  sha : Option String
  rawUrl : Option String
  content : Option String
  error : Option String
deriving DecidableEq

def isFileFetched (f : File) : Bool := f.content.isSome

/-- Modelled from the spec: a file known to the remote store (it has a
remote-assigned content hash), fetched or not. -/
def isFileInGit (f : File) : Bool := f.sha.isSome

/-- File Map get by path (unique key). -/
def fileMapGet (fm : List File) (p : String) : Option File :=
  fm.find? (fun f => f.path == p)

/-- File Map set-content: upsert, clearing any prior fetch error. -/
def fileMapSetContent (fm : List File) (p : String) (c : String) : List File :=
  if (fm.find? (fun f => f.path == p)).isSome then
    fm.map (fun f => if f.path == p then { f with content := some c, error := none } else f)
  else fm ++ [{ path := p, sha := none, rawUrl := none, content := some c, error := none }]

/-- The external collaborators of entry extraction: YAML (de)serialization of
metadata, fresh-metadata creation (timestamps "now"), and markdown rendering
returning html plus extracted link targets — all out of scope per the spec,
passed as parameters. -/
structure ExtDeps where
  parseMetaData : String → Except Unit MetaData
  serializeMetaData : MetaData → String
  newMetaData : MetaData
  processMarkdownText : String → String × List String

def mkFileKey (repo : Repo) (path : String) : String := getRepoId repo ++ ":" ++ path

/-- The `constructFileEntry` function: build a Note entry from a fetched
markdown file, a Document entry from a tracked non-note file, and nothing
otherwise. -/
def constructFileEntry (ext : ExtDeps) (repo : Repo) (file : File) (metaData : MetaData) :
    Option EntryFile :=
  let fileKind := getFileKind file.path
  let lte := splitLocationTitleExtension file.path
  match fileKind, file.content with
  | FileKind.noteMarkdown, some text =>
    let hl := ext.processMarkdownText text
    some
      { title := lte.2.1
        priority := 0
        labels := metaData.labels
        content := ContentFile.note
          ⟨repo, lte.1, lte.2.2, metaData.timeCreated, metaData.timeUpdated,
            file.rawUrl, text, hl.1, hl.2⟩
        key := mkFileKey repo file.path }
  | FileKind.document, _ =>
    if isFileInGit file then
      some
        { title := lte.2.1
          priority := 0
          labels := metaData.labels
          content := ContentFile.doc
            ⟨repo, lte.1, lte.2.2, metaData.timeCreated, metaData.timeUpdated,
              file.rawUrl⟩
          key := mkFileKey repo file.path }
    else none
  | _, _ => none

/-- The create-from-scratch arm of extraction: synthesize fresh metadata,
build the entry, and stage the sidecar write when the entry exists. -/
def processFileScratch (ext : ExtDeps) (repo : Repo) (file : File) (metaPath : String) :
    Option EntryFile × Option (String × String) :=
  let newMetaData := ext.newMetaData
  let newMetaDataContent := ext.serializeMetaData newMetaData
  match constructFileEntry ext repo file newMetaData with
  | some entry => (some entry, some (metaPath, newMetaDataContent))
  | none => (none, none)

/-- One file of the extraction loop: skip reserved paths; with a parsed
sidecar build the entry; with an unfetchable sidecar (fetch error) skip the
path entirely and stage nothing; otherwise create metadata from scratch. -/
def processFile (ext : ExtDeps) (repo : Repo) (fileMap : List File) (file : File) :
    Option EntryFile × Option (String × String) :=
  if isNotemarksFile file.path then (none, none)
  else
    let associatedMetaPath := getAssociatedMetaPath file.path
    match fileMapGet fileMap associatedMetaPath with
    | some mf =>
      match mf.content with
      | some mc =>
        match ext.parseMetaData mc with
        | Except.ok metaData => (constructFileEntry ext repo file metaData, none)
        | Except.error _ => processFileScratch ext repo file associatedMetaPath
      | none =>
        match mf.error with
        | some _ => (none, none)
        | none => processFileScratch ext repo file associatedMetaPath
    | none => processFileScratch ext repo file associatedMetaPath

def repoEntries (ext : ExtDeps) (repo : Repo) (fileMap : List File) : List EntryFile :=
  fileMap.filterMap (fun file => (processFile ext repo fileMap file).1)

def repoStagings (ext : ExtDeps) (repo : Repo) (fileMap : List File) :
    List (String × String) :=
  fileMap.filterMap (fun file => (processFile ext repo fileMap file).2)

def applyStagings (fm : List File) (ws : List (String × String)) : List File :=
  ws.foldl (fun m w => fileMapSetContent m w.1 w.2) fm

/-- The `extractFileEntriesAndUpdateFileMap` function: derive the file
entries from the original multi-repo file map and return the edit-side clone
with the synthesized sidecar writes staged (repo keys are unique, as the
multi-repo map is keyed by repo id). -/
def extractFileEntriesAndUpdateFileMap (ext : ExtDeps)
    (allFileMapsOrig : List (Repo × List File)) :
    List EntryFile × List (Repo × List File) :=
  ((allFileMapsOrig.map (fun rm => repoEntries ext rm.1 rm.2)).flatten,
   allFileMapsOrig.map (fun rm => (rm.1, applyStagings rm.2 (repoStagings ext rm.1 rm.2))))

/-- The pure core of `loadEntries` over already-downloaded per-repo files:
build the file maps, collect the link-registry contents, run the extraction,
and return `[fileEntries, allLinkDBs, stagedChanges]` exactly as the source
does — the `allErrors` accumulator is initialized empty, never appended to,
and not part of the return value, and the patched edit maps are dropped. -/
def loadEntries (ext : ExtDeps) (downloads : List (Repo × List File)) :
    List EntryFile × List (Repo × String) × List (Repo × List GitOp) :=
  let allFileMaps := downloads
  let allLinkDBs := allFileMaps.filterMap (fun rm =>
    match fileMapGet rm.2 NOTEMARKS_LINK_DB_PATH with
    | some f =>
      match f.content with
      | some c => some (rm.1, c)
      | none => none
    | none => none)
  let stagedChanges : List (Repo × List GitOp) := []
  let fe := extractFileEntriesAndUpdateFileMap ext allFileMaps
  (fe.1, allLinkDBs, stagedChanges)

/-- The `allErrors` list of `loadEntries`: initialized empty and never
appended to. -/
def loadEntriesAllErrors (_downloads : List (Repo × List File)) : List WrappedError := []

/-- C5, evaluated at the failing input: a tracked note `a.md` whose sidecar
is present but carries a fetch error is excluded from the derived entry set
and no sidecar write is staged (the edit map is unchanged) — but `loadEntries`
surfaces nothing: its error list stays empty and is not even part of its
return value, so the condition never reaches the caller. -/
theorem c5_fetcherror_not_surfaced :
    (extractFileEntriesAndUpdateFileMap
        ⟨fun _ => Except.ok ⟨[], 0, 0⟩, fun _ => "meta", ⟨[], 1, 1⟩, fun s => (s, [])⟩
        [(⟨"u", "r", "tok", "main"⟩,
          [⟨"a.md", some "sha1", none, some "hello", none⟩,
           ⟨".notemarks/a.md.yaml", some "sha2", none, none, some "fetch failed"⟩])]).1
      = []
    ∧ (extractFileEntriesAndUpdateFileMap
        ⟨fun _ => Except.ok ⟨[], 0, 0⟩, fun _ => "meta", ⟨[], 1, 1⟩, fun s => (s, [])⟩
        [(⟨"u", "r", "tok", "main"⟩,
          [⟨"a.md", some "sha1", none, some "hello", none⟩,
           ⟨".notemarks/a.md.yaml", some "sha2", none, none, some "fetch failed"⟩])]).2
      = [(⟨"u", "r", "tok", "main"⟩,
          [⟨"a.md", some "sha1", none, some "hello", none⟩,
           ⟨".notemarks/a.md.yaml", some "sha2", none, none, some "fetch failed"⟩])]
    ∧ loadEntries
        ⟨fun _ => Except.ok ⟨[], 0, 0⟩, fun _ => "meta", ⟨[], 1, 1⟩, fun s => (s, [])⟩
        [(⟨"u", "r", "tok", "main"⟩,
          [⟨"a.md", some "sha1", none, some "hello", none⟩,
           ⟨".notemarks/a.md.yaml", some "sha2", none, none, some "fetch failed"⟩])]
      = ([], [], [])
    ∧ loadEntriesAllErrors
        [(⟨"u", "r", "tok", "main"⟩,
          [⟨"a.md", some "sha1", none, some "hello", none⟩,
           ⟨".notemarks/a.md.yaml", some "sha2", none, none, some "fetch failed"⟩])]
      = []
    ∧ ((fileMapGet
          [⟨"a.md", some "sha1", none, some "hello", none⟩,
           ⟨".notemarks/a.md.yaml", some "sha2", none, none, some "fetch failed"⟩]
          (getAssociatedMetaPath "a.md")).map (fun f => (f.content, f.error)))
      = some (none, some "fetch failed")
    ∧ isNotemarksFile "a.md" = false := by
  refine ⟨rfl, rfl, rfl, rfl, rfl, rfl⟩
